import Mathlib

/-!
Verification development for jpkg (src/jpkg.cpp): the archive writer of the
JVFS0100 / JVFS0101 package formats.

Conventions of the embedding.
* A byte is a natural number below 256; a std::string or a buffer is a list of bytes.
* uint64_t and uint32_t values are natural numbers, reduced modulo 2^64 or 2^32 at the
  places where the source computes in that width.
* The stream classes of file_stream.hpp and zlib are not part of src/jpkg.cpp; they are
  modelled below and every such definition says so.
-/

namespace jpkg

/-! ## Byte encoder (src/jpkg.cpp lines 27-55) -/

/-- The v0 signature, the ASCII bytes of "JVFS0100". -/
def cs_signature : List Nat := [74, 86, 70, 83, 48, 49, 48, 48]

/-- The v1 signature, the ASCII bytes of "JVFS0101". -/
def cs_signature_v1 : List Nat := [74, 86, 70, 83, 48, 49, 48, 49]

/-- The array tmp[8] that encode(uint64_t) fills, lines 34-42. The parameter is a uint64_t, so
the argument is first reduced modulo 2^64; a cast to uint8_t is a reduction modulo 256. -/
def encode_tmp (data : Nat) : List Nat :=
  let data := data % 2 ^ 64
  [ ((data >>> 56) % 256) &&& 0xff,
    ((data >>> 48) % 256) &&& 0xff,
    ((data >>> 40) % 256) &&& 0xff,
    ((data >>> 32) % 256) &&& 0xff,
    ((data >>> 24) % 256) &&& 0xff,
    ((data >>> 16) % 256) &&& 0xff,
    ((data >>> 8) % 256) &&& 0xff,
    (data &&& 0xff) % 256 ]

/-- The C function strlen on a NUL-terminated buffer: the number of bytes before the first
zero byte. -/
def strlen (s : List Nat) : Nat := (s.takeWhile (fun b => b != 0)).length

/-- The buffer std::string::c_str() returns: the bytes of the string and a terminating NUL. -/
def c_str (s : List Nat) : List Nat := s ++ [0]

/-- Big-endian value of a byte list (the reading a decoder of the format performs). -/
def be_value (bytes : List Nat) : Nat := bytes.foldl (fun acc b => acc * 256 + b) 0

/-! ## Streams -/

/-- Modelled from the spec: the stream classes declared in file_stream.hpp, which is not under
src/. A stream is a byte array with a cursor. A write stores at the cursor, overwriting what is
there and extending the array past its end, and reports how many bytes it accepted; a medium of
capacity `cap` accepts bytes only below offset `cap` (a short write), no capacity means every
write is accepted in full. `log` records each write call as (requested, accepted). -/
structure file_stream_if where
  data : List Nat
  pos : Nat
  cap : Option Nat
  log : List (Nat × Nat)
deriving DecidableEq

/-- Modelled from the spec: the effect on a byte array of storing `buf` at offset `pos`: the
bytes there are replaced, the array grows when the store passes its end, and a gap between
the end and `pos` reads as zero bytes. -/
def overwrite (data : List Nat) (pos : Nat) (buf : List Nat) : List Nat :=
  data.take pos ++ List.replicate (pos - data.length) 0 ++ buf ++ data.drop (pos + buf.length)

namespace file_stream_if

/-- Number of bytes a write of `n` bytes at the cursor gets accepted. -/
def accepted (s : file_stream_if) (n : Nat) : Nat :=
  match s.cap with
  | none => n
  | some c => min n (c - s.pos)

/-- Modelled from the spec: write(buf, len), returning the number of bytes written. -/
def write (s : file_stream_if) (buf : List Nat) : file_stream_if × Nat :=
  let k := s.accepted buf.length
  ({ s with
      data := overwrite s.data s.pos (buf.take k),
      pos := s.pos + k,
      log := s.log ++ [(buf.length, k)] }, k)

/-- Modelled from the spec: seek(offset). -/
def seek (s : file_stream_if) (offset : Nat) : file_stream_if := { s with pos := offset }

/-- Modelled from the spec: tell(). -/
def tell (s : file_stream_if) : Nat := s.pos

/-- Modelled from the spec: size(), the byte length of the stream. -/
def size (s : file_stream_if) : Nat := s.data.length

/-- Modelled from the spec: read(buf, len): up to `len` bytes from the cursor on. -/
def read (s : file_stream_if) (len : Nat) : file_stream_if × List Nat :=
  let got := (s.data.drop s.pos).take len
  ({ s with pos := s.pos + got.length }, got)

/-- Modelled from the spec: eof(), true once the cursor has reached the end of the data. -/
def eof (s : file_stream_if) : Bool := decide (s.data.length ≤ s.pos)

end file_stream_if

/-- Modelled from the spec: file_stream_writer_c(name), a fresh output file on a medium of the
given capacity. -/
def file_stream_writer_c (cap : Option Nat) : file_stream_if :=
  { data := [], pos := 0, cap := cap, log := [] }

/-- Modelled from the spec: file_stream_reader_c(name), a stream over the bytes of a file. -/
def file_stream_reader_c (content : List Nat) : file_stream_if :=
  { data := content, pos := 0, cap := some 0, log := [] }

/-- Modelled from the spec: file_mem_writer_c(vector, false), a stream that appends to a
vector in memory; it has no capacity limit. -/
def file_mem_writer_c : file_stream_if :=
  { data := [], pos := 0, cap := none, log := [] }

/-- Modelled from the spec: file_mem_reader_c(ptr, size, false), a stream over a memory block. -/
def file_mem_reader_c (block : List Nat) : file_stream_if :=
  { data := block, pos := 0, cap := some 0, log := [] }

/-- The function encode(uint64_t, wr), lines 33-45: one write of the 8 bytes of tmp; the result
of the write is dropped. -/
def encode (data : Nat) (wr : file_stream_if) : file_stream_if :=
  (wr.write (encode_tmp data)).1

/-- The function encode(const char*, wr), lines 47-50; `s` is the NUL-terminated buffer. -/
def encode_cstr (s : List Nat) (wr : file_stream_if) : file_stream_if :=
  let wr := (wr.write (s.take (strlen s))).1
  (wr.write [0]).1

/-- The function encode(const std::string&, wr), lines 52-55. -/
def encode_string (s : List Nat) (wr : file_stream_if) : file_stream_if :=
  let wr := (wr.write ((c_str s).take s.length)).1
  (wr.write [0]).1

/-! ## Catalog size (lines 67-80) -/

/-- The loop `for (uint32_t i = 0U, j = entries.size(); i < j; ++i)` visits the first
`size mod 2^32` elements: the element count is stored in a uint32_t. -/
def loop_range {α : Type} (xs : List α) : List α := xs.take (xs.length % 2 ^ 32)

/-- The function calc_uncompressed_header_size, lines 67-80; `res` is a uint64_t. -/
def calc_uncompressed_header_size (entries : List (List Nat)) (sig : List Nat) : Nat :=
  let res := ((8 + 8 + 1) * entries.length) % 2 ^ 64
  let res := (res + (sig.length + 1 + 8)) % 2 ^ 64
  (loop_range entries).foldl (fun res e => (res + e.length) % 2 ^ 64) res

/-! ## Streaming compressor (lines 298-331) -/

/-- The zlib return code Z_OK. -/
def Z_OK : Int := 0

/-- The zlib return code Z_ERRNO. -/
def Z_ERRNO : Int := -1

/-- The zlib flush mode Z_NO_FLUSH. -/
def Z_NO_FLUSH : Nat := 0

/-- The zlib flush mode Z_FINISH. -/
def Z_FINISH : Nat := 4

/-- The zlib level Z_DEFAULT_COMPRESSION. -/
def Z_DEFAULT_COMPRESSION : Int := -1

/-- The zlib level Z_BEST_COMPRESSION. -/
def Z_BEST_COMPRESSION : Int := 9

/-- The constant chunk_size of compress, line 299. -/
def chunk_size : Nat := 16 * 1024

/-- Modelled from the spec: the zlib deflater, an external library. `deflateInit level` gives
the initial state or the error code it returns; `deflate strm input flush` consumes one input
chunk under the given flush mode and gives the new state together with all the output that
zlib hands out for that chunk. The caller receives that output through its fixed output buffer,
one buffer-full per call of deflate (see `compress_drain`). -/
structure zlib (σ : Type) where
  deflateInit : Int → Except Int σ
  deflate : σ → List Nat → Nat → σ × List Nat

/-- The inner loop of compress, lines 318-327, for the output `pending` that zlib holds for the
current input chunk: each round deflate fills the buffer `out` with the next at most chunk_size
bytes, `have` of them, which are written to `dest`; a short write ends the loop with failure
(`false`); the loop goes on while the buffer came back full (avail_out == 0). The first argument
bounds the number of rounds; `compress_loop` passes pending.length / chunk_size + 1, which the
loop never exceeds. -/
def compress_drain : Nat → List Nat → file_stream_if → Bool × file_stream_if
  | 0, _, dest => (true, dest)
  | fuel + 1, pending, dest =>
    let out := pending.take chunk_size
    let have_ := out.length
    let (dest, written) := dest.write out
    if written ≠ have_ then (false, dest)
    else if have_ = chunk_size then compress_drain fuel (pending.drop chunk_size) dest
    else (true, dest)

/-- The outer loop of compress, lines 313-328: read a chunk, choose the flush mode from eof(),
deflate and drain; stop with Z_ERRNO on a short write and with Z_OK after the Z_FINISH chunk.
The result is the return code, the source and the destination. The first argument bounds the
number of rounds; `compress` passes size / chunk_size + 1, which the loop never exceeds. -/
def compress_loop {σ : Type} (z : zlib σ) :
    Nat → σ → file_stream_if → file_stream_if → Int × file_stream_if × file_stream_if
  | 0, _, source, dest => (Z_OK, source, dest)
  | fuel + 1, strm, source, dest =>
    let (source, inp) := source.read chunk_size
    let flush := if source.eof then Z_FINISH else Z_NO_FLUSH
    let (strm, pending) := z.deflate strm inp flush
    let (ok, dest) := compress_drain (pending.length / chunk_size + 1) pending dest
    if !ok then (Z_ERRNO, source, dest)
    else if flush ≠ Z_FINISH then compress_loop z fuel strm source dest
    else (Z_OK, source, dest)

/-- The function compress, lines 298-331. -/
def compress {σ : Type} (z : zlib σ) (source dest : file_stream_if) (level : Int) :
    Int × file_stream_if × file_stream_if :=
  match z.deflateInit level with
  | .error ret => (ret, source, dest)
  | .ok strm => compress_loop z ((source.size - source.pos) / chunk_size + 1) strm source dest

/-! ## Archive writers (lines 127-296) -/

/-- The struct pack_entry_t, lines 22-25. -/
structure pack_entry_t where
  addr : Nat
  uncompressed_size : Nat
deriving DecidableEq

/-- What a run of pack or pack_v1 leaves behind: the returned bool, the output stream (none
when it was never opened) and the local entry_list. -/
structure pack_result where
  ret : Bool
  write_stream : Option file_stream_if
  entry_list : List pack_entry_t
deriving DecidableEq

/-- The "Output" loop, lines 169-184 of pack and, with the same text, lines 243-258 of pack_v1,
over the files the loop visits: `fs` gives the bytes of the file at a path. The result of
compress is dropped, as in the source. -/
def write_bodies {σ : Type} (z : zlib σ) (fs : List Nat → List Nat) (level : Int) :
    List (List Nat) → file_stream_if → List pack_entry_t → file_stream_if × List pack_entry_t
  | [], write_stream, entry_list => (write_stream, entry_list)
  | path :: rest, write_stream, entry_list =>
    let read_stream := file_stream_reader_c (fs path)
    let pack_ent : pack_entry_t :=
      { addr := write_stream.tell, uncompressed_size := read_stream.size }
    let write_stream := (compress z read_stream write_stream level).2.2
    write_bodies z fs level rest write_stream (entry_list ++ [pack_ent])

/-- The loop that writes the entry table, lines 194-198 of pack and lines 279-283 of pack_v1,
over the pairs (entry_list[i], file_list[i]) the loop visits. -/
def write_entries : List (pack_entry_t × List Nat) → file_stream_if → file_stream_if
  | [], wr => wr
  | (e, path) :: rest, wr =>
    let wr := encode e.addr wr
    let wr := encode e.uncompressed_size wr
    let wr := encode_string path wr
    write_entries rest wr

/-- The "Patch header" part of pack, lines 189-198. -/
def patch_header (file_list : List (List Nat)) (entry_list : List pack_entry_t)
    (write_stream : file_stream_if) : file_stream_if :=
  let write_stream := write_stream.seek 0
  let write_stream := encode_string cs_signature write_stream
  let write_stream := encode file_list.length write_stream
  write_entries (entry_list.zip (loop_range file_list)) write_stream

/-- The function pack, lines 127-203, from the scan result on: `file_list` is what get_files
left in the list (its bool result is not looked at by pack), `cap` the capacity of the medium
of the package file, `fs` the content of the files. -/
def pack {σ : Type} (z : zlib σ) (fs : List Nat → List Nat) (cap : Option Nat)
    (file_list : List (List Nat)) (compression_level : Int) : pack_result :=
  if file_list.isEmpty then { ret := false, write_stream := none, entry_list := [] }
  else
    let write_stream := file_stream_writer_c cap
    let write_stream := write_stream.seek 0
    let hdr_size := calc_uncompressed_header_size file_list cs_signature
    let write_stream := (write_stream.write (List.replicate hdr_size 0)).1
    let (write_stream, entry_list) :=
      write_bodies z fs compression_level (loop_range file_list) write_stream []
    let write_stream := patch_header file_list entry_list write_stream
    { ret := true, write_stream := some write_stream, entry_list := entry_list }

/-- The bytes pack_v1 collects in hdr_data through the memory stream unc_hdr, lines 274-283. -/
def hdr_data (file_list : List (List Nat)) (entry_list : List pack_entry_t) : List Nat :=
  let unc_hdr := file_mem_writer_c
  let unc_hdr := encode file_list.length unc_hdr
  let unc_hdr := write_entries (entry_list.zip (loop_range file_list)) unc_hdr
  unc_hdr.data

/-- The value uncomp_hdr_sz of pack_v1, line 269: a uint64_t difference. -/
def uncomp_hdr_sz (file_list : List (List Nat)) : Nat :=
  (calc_uncompressed_header_size file_list cs_signature_v1 + 2 ^ 64
    - (cs_signature_v1.length + 1) % 2 ^ 64) % 2 ^ 64

/-- The "Update header" part of pack_v1, lines 262-266: store the current offset in the
header-offset field at `hdr_jmp_addr` and return to the current offset. -/
def patch_header_offset (hdr_jmp_addr : Nat) (write_stream : file_stream_if) : file_stream_if :=
  let tmp := write_stream.tell
  let write_stream := write_stream.seek hdr_jmp_addr
  let write_stream := encode tmp write_stream
  write_stream.seek tmp

/-- The function pack_v1, lines 208-296, from the scan result on (parameters as for pack). -/
def pack_v1 {σ : Type} (z : zlib σ) (fs : List Nat → List Nat) (cap : Option Nat)
    (file_list : List (List Nat)) (compression_level : Int) : pack_result :=
  if file_list.isEmpty then { ret := false, write_stream := none, entry_list := [] }
  else
    let write_stream := file_stream_writer_c cap
    let write_stream := write_stream.seek 0
    let write_stream := encode_string cs_signature_v1 write_stream
    let hdr_jmp_addr := write_stream.tell
    let write_stream := encode 0 write_stream
    let (write_stream, entry_list) :=
      write_bodies z fs compression_level (loop_range file_list) write_stream []
    let write_stream := patch_header_offset hdr_jmp_addr write_stream
    let write_stream := encode (uncomp_hdr_sz file_list) write_stream
    let unc_hdr_rd := file_mem_reader_c (hdr_data file_list entry_list)
    let write_stream := (compress z unc_hdr_rd write_stream compression_level).2.2
    { ret := true, write_stream := some write_stream, entry_list := entry_list }

/-! ## Reference functions used to state the results -/

/-- The compressor as a function from bytes to bytes: what compress hands to an unlimited
memory stream for a source with the given content. -/
def compressed {σ : Type} (z : zlib σ) (level : Int) (content : List Nat) : List Nat :=
  (compress z (file_stream_reader_c content) file_mem_writer_c level).2.2.data

/-- The bytes [lo, hi) of a byte array. -/
def region (data : List Nat) (lo hi : Nat) : List Nat := (data.drop lo).take (hi - lo)

/-- Whether a medium of capacity `cap` holds `n` bytes, so that no write below offset `n` is
cut short. -/
def holds (cap : Option Nat) (n : Nat) : Bool :=
  match cap with
  | none => true
  | some c => decide (n ≤ c)

/-- The pure counterpart of compress_loop: the output zlib produces for the input `rest` that
is still unread, chunk by chunk, with the flush mode the loop chooses. -/
def deflate_out {σ : Type} (z : zlib σ) : Nat → σ → List Nat → List Nat
  | 0, _, _ => []
  | fuel + 1, strm, rest =>
    let inp := rest.take chunk_size
    let flush := if decide (rest.length ≤ chunk_size) then Z_FINISH else Z_NO_FLUSH
    let (strm, pending) := z.deflate strm inp flush
    if flush ≠ Z_FINISH then pending ++ deflate_out z fuel strm (rest.drop chunk_size)
    else pending

/-- The compressed bodies of the given files, one after the other. -/
def bodies {σ : Type} (z : zlib σ) (fs : List Nat → List Nat) (level : Int)
    (files : List (List Nat)) : List Nat :=
  (files.map (fun path => compressed z level (fs path))).flatten

/-- The entries of the given files when their bodies are laid out back to back from offset
`base` on: each addr is `base` plus the length of the bodies before it, each
uncompressed_size the byte length of the file. -/
def entries_at {σ : Type} (z : zlib σ) (fs : List Nat → List Nat) (level : Int) :
    Nat → List (List Nat) → List pack_entry_t
  | _, [] => []
  | base, path :: rest =>
    { addr := base, uncompressed_size := (fs path).length }
      :: entries_at z fs level (base + (compressed z level (fs path)).length) rest

/-- One row of the entry table: u64 addr, u64 uncompressed_size, the path, one zero byte. -/
def entry_bytes (e : pack_entry_t × List Nat) : List Nat :=
  encode_tmp e.1.addr ++ encode_tmp e.1.uncompressed_size ++ e.2 ++ [0]

/-- The rows of the entry table, in order. -/
def table_bytes (es : List (pack_entry_t × List Nat)) : List Nat :=
  (es.map entry_bytes).flatten

/-- The catalog blob: u64 count, then the rows of the entry table. -/
def catalog_bytes (count : Nat) (es : List (pack_entry_t × List Nat)) : List Nat :=
  encode_tmp count ++ table_bytes es

/-- The offset up to which the region of entry `i` reaches: the addr of entry `i + 1`, or
`body_end` for the last entry. -/
def region_end (entry_list : List pack_entry_t) (i body_end : Nat) : Nat :=
  match entry_list[i + 1]? with
  | some e => e.addr
  | none => body_end

/-- The header size as the specification words it: the signature and its terminator, 8 bytes
of entry count, 17 bytes per entry and the path lengths. -/
def header_size_formula (entries : List (List Nat)) (sig : List Nat) : Nat :=
  (sig.length + 1) + 8 + 17 * entries.length + (entries.map List.length).sum

/-- The number of bytes the write calls recorded in a log asked to store. -/
def requested (log : List (Nat × Nat)) : Nat := (log.map Prod.fst).sum

/-- The entry list of the v0 layout: bodies back to back from the reserved header size on. -/
def v0_entries {σ : Type} (z : zlib σ) (fs : List Nat → List Nat) (level : Int)
    (file_list : List (List Nat)) : List pack_entry_t :=
  entries_at z fs level (calc_uncompressed_header_size file_list cs_signature)
    (loop_range file_list)

/-- The v0 header: signature, zero byte, u64 count, entry table. -/
def v0_header {σ : Type} (z : zlib σ) (fs : List Nat → List Nat) (level : Int)
    (file_list : List (List Nat)) : List Nat :=
  cs_signature ++ [0] ++ catalog_bytes file_list.length
    ((v0_entries z fs level file_list).zip (loop_range file_list))

/-- The entry list of the v1 layout: bodies back to back from offset 17 on (9 bytes of
signature and 8 bytes of header offset come first). -/
def v1_entries {σ : Type} (z : zlib σ) (fs : List Nat → List Nat) (level : Int)
    (file_list : List (List Nat)) : List pack_entry_t :=
  entries_at z fs level 17 (loop_range file_list)

/-- The catalog blob of the v1 layout. -/
def v1_catalog {σ : Type} (z : zlib σ) (fs : List Nat → List Nat) (level : Int)
    (file_list : List (List Nat)) : List Nat :=
  catalog_bytes file_list.length ((v1_entries z fs level file_list).zip (loop_range file_list))

/-- The offset at which the v1 bodies end: 17 plus the total length of the bodies. -/
def v1_body_end {σ : Type} (z : zlib σ) (fs : List Nat → List Nat) (level : Int)
    (file_list : List (List Nat)) : Nat :=
  17 + (bodies z fs level (loop_range file_list)).length

/-- The size of the v0 archive: the reserved header and the bodies. A medium that holds this
many bytes accepts every write of pack. -/
def v0_size {σ : Type} (z : zlib σ) (fs : List Nat → List Nat) (level : Int)
    (file_list : List (List Nat)) : Nat :=
  calc_uncompressed_header_size file_list cs_signature
    + (bodies z fs level (loop_range file_list)).length

/-- The size of the v1 archive: signature, offset field and bodies, the catalog size field and
the compressed catalog. A medium that holds this many bytes accepts every write of pack_v1. -/
def v1_size {σ : Type} (z : zlib σ) (fs : List Nat → List Nat) (level : Int)
    (file_list : List (List Nat)) : Nat :=
  v1_body_end z fs level file_list + 8
    + (compressed z level (v1_catalog z fs level file_list)).length

/-- The path "r/" followed by eight letters a..p that spell `i` in base 16, lowest digit
first: distinct paths for distinct `i` below 2^32. -/
def path_n (i : Nat) : List Nat :=
  [114, 47] ++ (List.range 8).map (fun k => 97 + (i / 16 ^ k) % 16)

/-- A file list of `n` distinct paths. -/
def many_paths (n : Nat) : List (List Nat) := (List.range n).map path_n

/-- The relation "the stream went from `s` to `t` by storing exactly `bytes` at the cursor,
through write calls that were all accepted in full". -/
def Wrote (s t : file_stream_if) (bytes : List Nat) : Prop :=
  t.data = overwrite s.data s.pos bytes ∧ t.pos = s.pos + bytes.length ∧ t.cap = s.cap
    ∧ ∃ calls, t.log = s.log ++ calls ∧ ∀ q ∈ calls, q.2 = q.1

/-- A toy deflater for concrete runs: it copies each input chunk and appends the marker byte
255 when asked to finish. -/
def stored : zlib Unit :=
  { deflateInit := fun _ => .ok (),
    deflate := fun _ inp flush => ((), if flush = Z_FINISH then inp ++ [255] else inp) }

/-! ## Directory scanner (lines 57-65 and 82-125) -/

/-- Modelled from the spec: the file system as opendir and readdir show it (operating system
calls, not part of src/). `fsys k path` is the answer to the opendir call number `k` of the run
(counting from 0), asked for `path`: none when opendir returns NULL, otherwise the d_name
values that readdir then delivers, in order. The call number lets the answers change while
the scan runs. -/
abbrev filesystem := Nat → List Nat → Option (List (List Nat))

/-- A file system whose answers do not change while the scan runs. -/
def static_fs (f : List Nat → Option (List (List Nat))) : filesystem := fun _ path => f path

/-- The function is_dir, lines 57-65, as opendir call number `k`. -/
def is_dir (fsys : filesystem) (k : Nat) (path : List Nat) : Bool := (fsys k path).isSome

/-- The test `dirp->d_name[0] == '.'` of line 113. -/
def starts_with_dot (dn : List Nat) : Bool := dn.head? == some 46

/-- The readdir loop of get_files, lines 108-121, over the names that readdir delivers: `path`
is the directory path with its '/', `k` the number of opendir calls made so far, `dirs` the
stack of pending directories with its top at the head, `flist` the result list. -/
def scan_entries (fsys : filesystem) (path : List Nat) :
    List (List Nat) → Nat → List (List Nat) → List (List Nat)
      → Nat × List (List Nat) × List (List Nat)
  | [], k, dirs, flist => (k, dirs, flist)
  | dn :: rest, k, dirs, flist =>
    let full_path := path ++ dn
    if starts_with_dot dn then scan_entries fsys path rest k dirs flist
    else if is_dir fsys k full_path then
      scan_entries fsys path rest (k + 1) (full_path :: dirs) flist
    else scan_entries fsys path rest (k + 1) dirs (flist ++ [full_path])

/-- The line `if (path[path.length()-1] != '/') path += "/"` of get_files. -/
def with_slash (path : List Nat) : List Nat :=
  if path.getLast? ≠ some 47 then path ++ [47] else path

/-- The outer loop of get_files, lines 91-123. The stack `dirs` has its top at the head
(push_back and back of the vector). The first argument bounds the number of rounds; the result
is none when the loop has not ended within that many rounds, otherwise the returned bool and
the list left in flist. -/
def get_files_loop (fsys : filesystem) :
    Nat → Nat → List (List Nat) → List (List Nat) → Option (Bool × List (List Nat))
  | 0, _, _, _ => none
  | _ + 1, _, [], flist => some (true, flist)
  | fuel + 1, k, path :: dirs, flist =>
    if path.isEmpty then get_files_loop fsys fuel k dirs flist
    else
      match fsys k path with
      | none => some (false, flist)
      | some names =>
        let path := with_slash path
        let (k, dirs, flist) := scan_entries fsys path names (k + 1) dirs flist
        get_files_loop fsys fuel k dirs flist

/-- The function get_files, lines 82-125, run for at most `fuel` rounds of its outer loop. -/
def get_files (fsys : filesystem) (fuel : Nat) (root : List Nat) :
    Option (Bool × List (List Nat)) :=
  get_files_loop fsys fuel 0 [root] []

/-- The function pack in full, lines 127-203: the scan of root_path (its bool result is
dropped, line 137) followed by the part modelled in `pack`; none when the scan has not ended
within `fuel` rounds. -/
def pack_root {σ : Type} (z : zlib σ) (fs : List Nat → List Nat) (cap : Option Nat)
    (fsys : filesystem) (fuel : Nat) (root_path : List Nat) (compression_level : Int) :
    Option pack_result :=
  match get_files fsys fuel root_path with
  | none => none
  | some (_, file_list) => some (pack z fs cap file_list compression_level)

/-- The function pack_v1 in full, lines 208-296 (see `pack_root`). -/
def pack_v1_root {σ : Type} (z : zlib σ) (fs : List Nat → List Nat) (cap : Option Nat)
    (fsys : filesystem) (fuel : Nat) (root_path : List Nat) (compression_level : Int) :
    Option pack_result :=
  match get_files fsys fuel root_path with
  | none => none
  | some (_, file_list) => some (pack_v1 z fs cap file_list compression_level)

/-! ## Directory trees -/

/-- An entry of a directory: a file, a directory that cannot be opened, or a directory with
its entries in the order readdir lists them. -/
inductive Entry where
  | file (name : List Nat)
  | closed (name : List Nat)
  | dir (name : List Nat) (entries : List Entry)

/-- The name of an entry. -/
def Entry.name : Entry → List Nat
  | .file n => n
  | .closed n => n
  | .dir n _ => n

/-- The paths of the entries of a directory that get_files lists itself: the entries that are
not skipped for their dot and are not directories that open, in listing order; `pre` is the
directory path with its '/'. -/
def direct_files (pre : List Nat) (es : List Entry) : List (List Nat) :=
  es.filterMap (fun e =>
    match e with
    | .dir _ _ => none
    | .file n => if starts_with_dot n then none else some (pre ++ n)
    | .closed n => if starts_with_dot n then none else some (pre ++ n))

/-- The subdirectories of a directory that get_files expands: the directories that open and
are not skipped for their dot, with their paths, in listing order. -/
def subdirs (pre : List Nat) (es : List Entry) : List (List Nat × List Entry) :=
  es.filterMap (fun e =>
    match e with
    | .dir n sub => if starts_with_dot n then none else some (pre ++ n, sub)
    | _ => none)

mutual
/-- The part of `represents` for the entries of a directory whose path with its '/' is `pre`. -/
def represents_all (f : List Nat → Option (List (List Nat))) (pre : List Nat) :
    List Entry → Bool
  | [] => true
  | e :: es => represents_one f pre e && represents_all f pre es
/-- The part of `represents` for one entry: an entry that is skipped for its dot is not looked
at; a file or a closed directory does not open; a directory opens, lists the names of its
entries, and these are found below it in turn. -/
def represents_one (f : List Nat → Option (List (List Nat))) (pre : List Nat) :
    Entry → Bool
  | .file n => starts_with_dot n || decide (f (pre ++ n) = none)
  | .closed n => starts_with_dot n || decide (f (pre ++ n) = none)
  | .dir n sub => starts_with_dot n
      || (decide (f (pre ++ n) = some (sub.map Entry.name))
          && represents_all f (with_slash (pre ++ n)) sub)
end

/-- Whether the answers `f` of a file system are those of the directory with entries `es` at
`path`: the directory opens and lists the names of `es`, and every entry that is not skipped
for its dot is found at its path. -/
def represents (f : List Nat → Option (List (List Nat))) (path : List Nat)
    (es : List Entry) : Bool :=
  decide (f path = some (es.map Entry.name)) && represents_all f (with_slash path) es

mutual
/-- The walks of the subdirectories among `es`, in reverse listing order; `pre` is the path of
their directory with its '/'. -/
def walk_rev (pre : List Nat) : List Entry → List (List Nat)
  | [] => []
  | e :: es => walk_rev pre es ++ walk_one pre e
/-- The walk of one entry: for a directory that opens and is not skipped for its dot, the
paths of the entries it lists directly followed by the walks of its subdirectories in reverse
listing order; nothing for any other entry. -/
def walk_one (pre : List Nat) : Entry → List (List Nat)
  | .file _ => []
  | .closed _ => []
  | .dir n sub =>
    if starts_with_dot n then []
    else direct_files (with_slash (pre ++ n)) sub ++ walk_rev (with_slash (pre ++ n)) sub
end

/-- The recursive definition of the scan order, for the directory with entries `es` at `path`:
the paths of the entries listed directly, in listing order, followed by the walks of the
subdirectories taken in reverse listing order. -/
def walk (path : List Nat) (es : List Entry) : List (List Nat) :=
  direct_files (with_slash path) es ++ walk_rev (with_slash path) es

/-- The paths of the children of a directory that are not directories and whose names do not
begin with a dot, in listing order. -/
def files_of (pre : List Nat) (es : List Entry) : List (List Nat) :=
  es.filterMap (fun e =>
    match e with
    | .file n => if starts_with_dot n then none else some (pre ++ n)
    | _ => none)

mutual
/-- The part of `walk_spec` for the subdirectories among `es`, taken in reverse listing
order. -/
def walk_spec_rev (pre : List Nat) : List Entry → List (List Nat)
  | [] => []
  | e :: es => walk_spec_rev pre es ++ walk_spec_one pre e
/-- The part of `walk_spec` for one entry: for a subdirectory whose name does not begin with a
dot its non-dot non-directory children followed by the walks of its subdirectories; nothing
for any other entry. -/
def walk_spec_one (pre : List Nat) : Entry → List (List Nat)
  | .file _ => []
  | .closed _ => []
  | .dir n sub =>
    if starts_with_dot n then []
    else files_of (with_slash (pre ++ n)) sub ++ walk_spec_rev (with_slash (pre ++ n)) sub
end

/-- The recursive definition in the words of the specification: walk(d) is the non-dot
non-directory children of d, in listing order, followed by the concatenation of walk(s) over
the non-dot subdirectories s of d taken in reverse listing order. -/
def walk_spec (path : List Nat) (es : List Entry) : List (List Nat) :=
  files_of (with_slash path) es ++ walk_spec_rev (with_slash path) es

mutual
/-- The number of directories below a directory with entries `es` that get_files expands. -/
def weight : List Entry → Nat
  | [] => 0
  | e :: es => weight_one e + weight es
/-- The part of `weight` for one entry. -/
def weight_one : Entry → Nat
  | .file _ => 0
  | .closed _ => 0
  | .dir n sub => if starts_with_dot n then 0 else 1 + weight sub
end

mutual
/-- The chains of names that lead from a directory with entries `es` to the non-directory
entries reachable through entries none of whose names begins with a dot, each chain ending in
the name of the entry it leads to. -/
def reachable : List Entry → List (List (List Nat))
  | [] => []
  | e :: es => reachable_one e ++ reachable es
/-- The part of `reachable` for one entry. -/
def reachable_one : Entry → List (List (List Nat))
  | .file n => if starts_with_dot n then [] else [[n]]
  | .closed _ => []
  | .dir n sub => if starts_with_dot n then [] else (reachable sub).map (fun c => n :: c)
end

mutual
/-- Whether every directory of the tree can be opened: there is no closed entry. -/
def all_open : List Entry → Bool
  | [] => true
  | e :: es => all_open_one e && all_open es
/-- The part of `all_open` for one entry. -/
def all_open_one : Entry → Bool
  | .file _ => true
  | .closed _ => false
  | .dir _ sub => all_open sub
end

/-- Whether a name is one that readdir can deliver: not empty and without '/'. -/
def name_ok (n : List Nat) : Bool := !n.isEmpty && !n.contains 47

mutual
/-- Whether every name of the tree is one that readdir can deliver. -/
def names_ok : List Entry → Bool
  | [] => true
  | e :: es => names_ok_one e && names_ok es
/-- The part of `names_ok` for one entry. -/
def names_ok_one : Entry → Bool
  | .file n => name_ok n
  | .closed n => name_ok n
  | .dir n sub => name_ok n && names_ok sub
end

/-- The path that a chain of names gives below a directory path that ends in '/': the names
joined by '/'. -/
def join_path (pre : List Nat) (chain : List (List Nat)) : List Nat :=
  pre ++ List.intercalate [47] chain

/-- A small file system for concrete runs: the directory "r" lists ".", "..", "a", "s" and
"b", the directory "r/s" lists "." and "c", nothing else opens. -/
def small_fs : List Nat → Option (List (List Nat)) := fun path =>
  if path = [114] then some [[46], [46, 46], [97], [115], [98]]
  else if path = [114, 47, 115] then some [[46], [99]]
  else none

/-- The entries of the root of `small_fs`. -/
def small_tree : List Entry :=
  [.file [46], .file [46, 46], .file [97], .dir [115] [.file [46], .file [99]], .file [98]]

/-- A file system in which the subdirectory "s" of "r" cannot be opened: "r" lists ".", "..",
"a" and "s", and nothing but "r" opens. -/
def closed_fs : List Nat → Option (List (List Nat)) := fun path =>
  if path = [114] then some [[46], [46, 46], [97], [115]] else none

/-- The entries of the root of `closed_fs`. -/
def closed_tree : List Entry :=
  [.file [46], .file [46, 46], .file [97], .closed [115]]

/-- A file system whose answers change during the scan: "r" lists ".", "..", "a" and "s";
"r/s" opens (and is empty) on the opendir calls number 0, 1 and 2 and fails from call
number 3 on, as when the directory is removed or loses its read permission meanwhile. -/
def flaky_fs : filesystem := fun k path =>
  if path = [114] then some [[46], [46, 46], [97], [115]]
  else if path = [114, 47, 115] ∧ k < 3 then some []
  else none

/-! ## The calls of the deflater -/

/-- Reads `count` rows of an entry table: 8 bytes of addr, 8 bytes of uncompressed_size, then
the path up to the first zero byte, which is skipped. -/
def decode_rows : Nat → List Nat → List (pack_entry_t × List Nat)
  | 0, _ => []
  | count + 1, bytes =>
    let rest := bytes.drop 16
    let path := rest.takeWhile (fun b => b != 0)
    ({ addr := be_value (bytes.take 8), uncompressed_size := be_value ((bytes.drop 8).take 8) },
      path) :: decode_rows count (rest.drop (path.length + 1))

/-- Reads a catalog blob: the u64 count, then that many rows. -/
def decode_catalog (bytes : List Nat) : List (pack_entry_t × List Nat) :=
  decode_rows (be_value (bytes.take 8)) (bytes.drop 8)

/-! ## The entry point (lines 352-375) -/

/-- The call of pack or pack_v1 that main makes: `v1` tells which of the two, the other fields
are the arguments passed. -/
structure pack_call where
  v1 : Bool
  pkg_name : List Nat
  root_path : List Nat
  compression_level : Int
deriving DecidableEq

/-- What one run of main does: whether help() printed the usage text, the indices i of the
argv[i] it read, in order, the call of pack or pack_v1 it made, and the value it returned;
`ret` is none when the run read through argv[argc], which is a null pointer. -/
structure main_run where
  usage : Bool
  reads : List Nat
  call : Option pack_call
  ret : Option Int
deriving DecidableEq

/-- The function main, lines 352-375. `argv` holds the strings argv[0] .. argv[argc-1], the
program name first, so argc is its length. -/
def main (argv : List (List Nat)) : main_run :=
  let argc := argv.length
  if argc < 3 ∨ argc > 5 then { usage := true, reads := [], call := none, ret := some 0 }
  else
    let comp := Z_DEFAULT_COMPRESSION
    let (comp, reads) :=
      if argc = 5 then
        let tmp := argv.getD 4 []
        (if tmp = [98, 101, 115, 116] then Z_BEST_COMPRESSION else comp, [4])
      else (comp, [])
    match argv[3]? with
    | none => { usage := false, reads := reads ++ [3], call := none, ret := none }
    | some a3 =>
      let call : pack_call :=
        { v1 := (c_str a3).head? == some 49,
          pkg_name := argv.getD 1 [],
          root_path := argv.getD 2 [],
          compression_level := comp }
      { usage := false, reads := reads ++ [3, 1, 2], call := some call, ret := some 0 }

/-! ## Streams: stores that are accepted in full -/

theorem holds_mono {cap : Option Nat} {n m : Nat} (h : holds cap m = true) (hnm : n ≤ m) :
    holds cap n = true := by
  cases cap with
  | none => rfl
  | some c =>
    simp only [holds, decide_eq_true_eq] at h ⊢
    omega

theorem accepted_of_holds (s : file_stream_if) (n : Nat)
    (h : holds s.cap (s.pos + n) = true) : s.accepted n = n := by
  unfold file_stream_if.accepted
  cases hc : s.cap with
  | none => rfl
  | some c =>
    rw [hc] at h
    simp only [holds, decide_eq_true_eq] at h
    simp only
    omega

theorem length_overwrite (data : List Nat) (pos : Nat) (buf : List Nat) :
    (overwrite data pos buf).length = max data.length (pos + buf.length) := by
  simp only [overwrite, List.length_append, List.length_take, List.length_replicate,
    List.length_drop]
  omega

theorem overwrite_overwrite (data : List Nat) (pos : Nat) (a b : List Nat) :
    overwrite (overwrite data pos a) (pos + a.length) b = overwrite data pos (a ++ b) := by
  have hlen : (data.take pos ++ List.replicate (pos - data.length) 0 ++ a).length
      = pos + a.length := by
    simp only [List.length_append, List.length_take, List.length_replicate]
    omega
  have h1 : (overwrite data pos a).take (pos + a.length)
      = data.take pos ++ List.replicate (pos - data.length) 0 ++ a := by
    unfold overwrite
    exact List.take_left' hlen
  have h2 : (overwrite data pos a).drop (pos + a.length + b.length)
      = data.drop (pos + (a ++ b).length) := by
    unfold overwrite
    rw [← List.drop_drop, List.drop_left' hlen, List.drop_drop, List.length_append]
    congr 1
    omega
  have h3 : pos + a.length - (overwrite data pos a).length = 0 := by
    rw [length_overwrite]
    omega
  have h4 : overwrite (overwrite data pos a) (pos + a.length) b
      = (overwrite data pos a).take (pos + a.length)
        ++ List.replicate (pos + a.length - (overwrite data pos a).length) 0 ++ b
        ++ (overwrite data pos a).drop (pos + a.length + b.length) := rfl
  rw [h4, h1, h2, h3]
  simp [overwrite, List.append_assoc]

theorem overwrite_nil (data : List Nat) (pos : Nat) (h : pos ≤ data.length) :
    overwrite data pos [] = data := by
  unfold overwrite
  have : pos - data.length = 0 := by omega
  simp [this]

theorem overwrite_at_end (data buf : List Nat) :
    overwrite data data.length buf = data ++ buf := by
  unfold overwrite
  simp

theorem write_wrote (s : file_stream_if) (buf : List Nat)
    (h : holds s.cap (s.pos + buf.length) = true) :
    Wrote s (s.write buf).1 buf ∧ (s.write buf).2 = buf.length := by
  have hk := accepted_of_holds s buf.length h
  simp only [file_stream_if.write, hk, List.take_length, Wrote, and_true, true_and]
  exact ⟨[(buf.length, buf.length)], rfl, by simp⟩

theorem Wrote.trans {s t u : file_stream_if} {a b : List Nat}
    (h1 : Wrote s t a) (h2 : Wrote t u b) : Wrote s u (a ++ b) := by
  obtain ⟨d1, p1, c1, l1, e1, f1⟩ := h1
  obtain ⟨d2, p2, c2, l2, e2, f2⟩ := h2
  refine ⟨?_, ?_, ?_, l1 ++ l2, ?_, ?_⟩
  · rw [d2, d1, p1, overwrite_overwrite]
  · rw [p2, p1, List.length_append]; omega
  · rw [c2, c1]
  · rw [e2, e1, List.append_assoc]
  · intro q hq
    rcases List.mem_append.1 hq with hq | hq
    · exact f1 q hq
    · exact f2 q hq

theorem Wrote.refl (s : file_stream_if) (h : s.pos ≤ s.data.length) : Wrote s s [] :=
  ⟨(overwrite_nil s.data s.pos h).symm, rfl, rfl, [], by simp, by simp⟩

theorem Wrote.pos_le {s t : file_stream_if} {a : List Nat} (h : Wrote s t a) :
    t.pos ≤ t.data.length := by
  rw [h.1, h.2.1, length_overwrite]
  omega

theorem Wrote.log_full {s t : file_stream_if} {a : List Nat} (h : Wrote s t a)
    (hs : ∀ q ∈ s.log, q.2 = q.1) : ∀ q ∈ t.log, q.2 = q.1 := by
  obtain ⟨_, _, _, l, e, f⟩ := h
  intro q hq
  rw [e] at hq
  rcases List.mem_append.1 hq with hq | hq
  · exact hs q hq
  · exact f q hq

theorem Wrote.holds {s t : file_stream_if} {a : List Nat} (h : Wrote s t a) {n : Nat}
    (hr : holds s.cap (s.pos + (a.length + n)) = true) : holds t.cap (t.pos + n) = true := by
  rw [h.2.2.1, h.2.1]
  exact holds_mono hr (by omega)

/-! ## The encoders and the compressor as stores -/

theorem length_encode_tmp (v : Nat) : (encode_tmp v).length = 8 := rfl

theorem encode_wrote (v : Nat) (wr : file_stream_if)
    (h : holds wr.cap (wr.pos + 8) = true) : Wrote wr (encode v wr) (encode_tmp v) :=
  (write_wrote wr (encode_tmp v) h).1

theorem encode_string_wrote (s : List Nat) (wr : file_stream_if)
    (h : holds wr.cap (wr.pos + (s.length + 1)) = true) :
    Wrote wr (encode_string s wr) (s ++ [0]) := by
  have hs : (c_str s).take s.length = s := List.take_left s [0]
  unfold encode_string
  rw [hs]
  have h1 := (write_wrote wr s (holds_mono h (by omega))).1
  have h2 := (write_wrote (wr.write s).1 [0] (h1.holds (by simpa using h))).1
  exact h1.trans h2

theorem compress_drain_wrote (fuel : Nat) (pending : List Nat) (dest : file_stream_if)
    (hfuel : pending.length / chunk_size < fuel)
    (h : holds dest.cap (dest.pos + pending.length) = true) :
    (compress_drain fuel pending dest).1 = true
      ∧ Wrote dest (compress_drain fuel pending dest).2 pending := by
  induction fuel generalizing pending dest with
  | zero => exact absurd hfuel (Nat.not_lt_zero _)
  | succ fuel ih =>
    have hc : chunk_size = 16384 := rfl
    have hlen : (pending.take chunk_size).length ≤ pending.length := by
      rw [List.length_take]; omega
    obtain ⟨hw, hn⟩ := write_wrote dest (pending.take chunk_size) (holds_mono h (by omega))
    rw [compress_drain]
    simp only [hn, ne_eq, not_true_eq_false, if_false]
    by_cases hfull : (pending.take chunk_size).length = chunk_size
    · rw [if_pos hfull]
      have hge : chunk_size ≤ pending.length := by
        rw [List.length_take] at hfull; omega
      have hdrop : (pending.drop chunk_size).length = pending.length - chunk_size :=
        List.length_drop _ _
      have hdiv : (pending.drop chunk_size).length / chunk_size < fuel := by
        rw [hdrop]
        rw [hc] at hfuel hge ⊢
        omega
      have hroom : holds (dest.write (pending.take chunk_size)).1.cap
          ((dest.write (pending.take chunk_size)).1.pos + (pending.drop chunk_size).length)
          = true := by
        apply hw.holds
        rw [hfull, hdrop]
        exact holds_mono h (by omega)
      obtain ⟨ok, hw2⟩ := ih (pending.drop chunk_size) _ hdiv hroom
      refine ⟨ok, ?_⟩
      have := hw.trans hw2
      rwa [List.take_append_drop] at this
    · rw [if_neg hfull]
      have hlt : pending.length < chunk_size := by
        rw [List.length_take] at hfull; omega
      have hall : pending.take chunk_size = pending := List.take_of_length_le (by omega)
      refine ⟨rfl, ?_⟩
      rw [hall] at hw ⊢
      exact hw

theorem read_eof (source : file_stream_if) :
    (source.read chunk_size).1.eof
      = decide ((source.data.drop source.pos).length ≤ chunk_size) := by
  simp only [file_stream_if.read, file_stream_if.eof, List.length_take, List.length_drop]
  by_cases h : source.data.length - source.pos ≤ chunk_size
  · simp only [h, decide_True, decide_eq_true_eq]; omega
  · simp only [h, decide_False, decide_eq_false_iff_not]; omega

theorem compress_loop_wrote {σ : Type} (z : zlib σ) (fuel : Nat) (strm : σ)
    (source dest : file_stream_if) (hwf : dest.pos ≤ dest.data.length)
    (h : holds dest.cap
      (dest.pos + (deflate_out z fuel strm (source.data.drop source.pos)).length) = true) :
    (compress_loop z fuel strm source dest).1 = Z_OK
      ∧ Wrote dest (compress_loop z fuel strm source dest).2.2
          (deflate_out z fuel strm (source.data.drop source.pos)) := by
  induction fuel generalizing strm source dest with
  | zero => exact ⟨rfl, Wrote.refl dest hwf⟩
  | succ fuel ih =>
    rw [compress_loop]
    rw [deflate_out] at h ⊢
    simp only [read_eof]
    simp only [file_stream_if.read]
    have hne : Z_NO_FLUSH ≠ Z_FINISH := by decide
    by_cases hfin : (source.data.drop source.pos).length ≤ chunk_size
    · simp only [hfin, decide_True, if_true, ne_eq, not_true_eq_false, if_false] at h ⊢
      rcases hr : z.deflate strm (List.take chunk_size (source.data.drop source.pos)) Z_FINISH
        with ⟨strm1, pending⟩
      simp only [hr] at h ⊢
      obtain ⟨ok, hw⟩ := compress_drain_wrote (pending.length / chunk_size + 1) pending dest
        (Nat.lt_succ_self _) h
      simp only [ok, Bool.not_true, Bool.false_eq_true, if_false]
      exact ⟨trivial, hw⟩
    · simp only [hfin, decide_False, Bool.false_eq_true, if_false, ne_eq, hne,
        not_false_eq_true, if_true] at h ⊢
      rcases hr : z.deflate strm (List.take chunk_size (source.data.drop source.pos))
        Z_NO_FLUSH with ⟨strm1, pending⟩
      simp only [hr, List.length_append] at h ⊢
      obtain ⟨ok, hw⟩ := compress_drain_wrote (pending.length / chunk_size + 1) pending dest
        (Nat.lt_succ_self _) (holds_mono h (by omega))
      simp only [ok, Bool.not_true, Bool.false_eq_true, if_false]
      have hpos : source.pos + (List.take chunk_size (source.data.drop source.pos)).length
          = source.pos + chunk_size := by
        rw [List.length_take]; omega
      have hdrop : List.drop chunk_size (source.data.drop source.pos)
          = source.data.drop (source.pos + chunk_size) := List.drop_drop _ _ _
      rw [hpos]
      rw [hdrop] at h ⊢
      obtain ⟨hret, hw2⟩ := ih strm1
        { data := source.data, pos := source.pos + chunk_size, cap := source.cap,
          log := source.log }
        (compress_drain (pending.length / chunk_size + 1) pending dest).2 hw.pos_le
        (hw.holds h)
      exact ⟨hret, hw.trans hw2⟩

theorem compress_wrote_aux {σ : Type} (z : zlib σ) (level : Int) (content : List Nat)
    (dest : file_stream_if) (hwf : dest.pos ≤ dest.data.length) (out : List Nat)
    (hout : out = match z.deflateInit level with
      | .error _ => []
      | .ok strm => deflate_out z (content.length / chunk_size + 1) strm content)
    (h : holds dest.cap (dest.pos + out.length) = true) :
    Wrote dest (compress z (file_stream_reader_c content) dest level).2.2 out := by
  unfold compress
  cases hi : z.deflateInit level with
  | error ret =>
    rw [hi] at hout
    subst hout
    exact Wrote.refl dest hwf
  | ok strm =>
    rw [hi] at hout
    subst hout
    exact (compress_loop_wrote z _ strm (file_stream_reader_c content) dest hwf h).2

theorem compressed_eq {σ : Type} (z : zlib σ) (level : Int) (content : List Nat) :
    compressed z level content = match z.deflateInit level with
      | .error _ => []
      | .ok strm => deflate_out z (content.length / chunk_size + 1) strm content := by
  have hw := compress_wrote_aux z level content file_mem_writer_c (Nat.le_refl _) _ rfl rfl
  unfold compressed
  rw [hw.1]
  exact overwrite_at_end [] _

/-- The round bound of compress_drain is never reached: every bound above
pending.length / chunk_size gives the same result, whatever the destination accepts. -/
theorem compress_drain_fuel (f1 f2 : Nat) (pending : List Nat) (dest : file_stream_if)
    (h1 : pending.length / chunk_size < f1) (h2 : pending.length / chunk_size < f2) :
    compress_drain f1 pending dest = compress_drain f2 pending dest := by
  induction f1 generalizing f2 pending dest with
  | zero => exact absurd h1 (Nat.not_lt_zero _)
  | succ f1 ih =>
    cases f2 with
    | zero => exact absurd h2 (Nat.not_lt_zero _)
    | succ f2 =>
      have hc : chunk_size = 16384 := rfl
      rw [compress_drain, compress_drain]
      simp only
      split
      · rfl
      · split
        · rename_i hfull
          have hge : chunk_size ≤ pending.length := by
            rw [List.length_take] at hfull; omega
          have hd : (pending.drop chunk_size).length = pending.length - chunk_size :=
            List.length_drop _ _
          apply ih
          · rw [hd]; rw [hc] at h1 hge ⊢; omega
          · rw [hd]; rw [hc] at h2 hge ⊢; omega
        · rfl

/-- What compress stores for a fresh source stream: the compressor output of its content,
provided the destination accepts that many bytes. -/
theorem compress_wrote {σ : Type} (z : zlib σ) (level : Int) (content : List Nat)
    (dest : file_stream_if) (hwf : dest.pos ≤ dest.data.length)
    (h : holds dest.cap (dest.pos + (compressed z level content).length) = true) :
    Wrote dest (compress z (file_stream_reader_c content) dest level).2.2
      (compressed z level content) :=
  compress_wrote_aux z level content dest hwf _ (compressed_eq z level content) h

/-! ## The loops of pack and pack_v1 as stores -/

theorem write_bodies_spec {σ : Type} (z : zlib σ) (fs : List Nat → List Nat) (level : Int)
    (files : List (List Nat)) (w : file_stream_if) (entry_list : List pack_entry_t)
    (hwf : w.pos ≤ w.data.length)
    (h : holds w.cap (w.pos + (bodies z fs level files).length) = true) :
    Wrote w (write_bodies z fs level files w entry_list).1 (bodies z fs level files)
      ∧ (write_bodies z fs level files w entry_list).2
          = entry_list ++ entries_at z fs level w.pos files := by
  induction files generalizing w entry_list with
  | nil => exact ⟨Wrote.refl w hwf, by simp [write_bodies, entries_at]⟩
  | cons path rest ih =>
    have hb : bodies z fs level (path :: rest)
        = compressed z level (fs path) ++ bodies z fs level rest := rfl
    rw [hb, List.length_append] at h
    have hw := compress_wrote z level (fs path) w hwf (holds_mono h (by omega))
    obtain ⟨hw2, he⟩ := ih (compress z (file_stream_reader_c (fs path)) w level).2.2
      (entry_list ++ [{ addr := w.tell, uncompressed_size := (file_stream_reader_c (fs path)).size }])
      hw.pos_le (hw.holds h)
    rw [write_bodies, hb]
    refine ⟨hw.trans hw2, ?_⟩
    rw [he, hw.2.1]
    simp [entries_at, file_stream_if.tell, file_stream_if.size, file_stream_reader_c]

theorem write_entries_wrote (es : List (pack_entry_t × List Nat)) (wr : file_stream_if)
    (hwf : wr.pos ≤ wr.data.length)
    (h : holds wr.cap (wr.pos + (table_bytes es).length) = true) :
    Wrote wr (write_entries es wr) (table_bytes es) := by
  induction es generalizing wr with
  | nil => exact Wrote.refl wr hwf
  | cons e rest ih =>
    obtain ⟨e, path⟩ := e
    have hb : table_bytes ((e, path) :: rest)
        = encode_tmp e.addr ++ (encode_tmp e.uncompressed_size ++ ((path ++ [0])
            ++ table_bytes rest)) := by
      simp [table_bytes, entry_bytes, List.append_assoc]
    rw [hb] at h ⊢
    simp only [List.length_append, length_encode_tmp, List.length_cons, List.length_nil] at h
    have h1 := encode_wrote e.addr wr (holds_mono h (by omega))
    have h2 := encode_wrote e.uncompressed_size _ (h1.holds (holds_mono h (by
      rw [length_encode_tmp]; omega)))
    have h3 := encode_string_wrote path _ (h2.holds (h1.holds (holds_mono h (by
      simp only [length_encode_tmp, List.length_append, List.length_cons, List.length_nil]; omega))))
    have h4 := ih _ h3.pos_le (h3.holds (h2.holds (h1.holds (holds_mono h (by
      simp only [length_encode_tmp, List.length_append, List.length_cons, List.length_nil]; omega)))))
    rw [write_entries]
    exact h1.trans (h2.trans (h3.trans h4))

/-! ## Sizes -/

theorem loop_range_of_lt {α : Type} (xs : List α) (h : xs.length < 2 ^ 32) :
    loop_range xs = xs := by
  unfold loop_range
  rw [Nat.mod_eq_of_lt h, List.take_length]

theorem length_loop_range_le {α : Type} (xs : List α) : (loop_range xs).length ≤ xs.length := by
  unfold loop_range
  rw [List.length_take]
  omega

theorem foldl_add_mod (xs : List (List Nat)) (r m : Nat) :
    xs.foldl (fun res e => (res + e.length) % m) (r % m)
      = (r + (xs.map List.length).sum) % m := by
  induction xs generalizing r with
  | nil => simp
  | cons x xs ih =>
    simp only [List.foldl_cons, List.map_cons, List.sum_cons]
    rw [Nat.mod_add_mod, ih]
    congr 1
    omega

theorem calc_eq_mod (entries : List (List Nat)) (sig : List Nat) :
    calc_uncompressed_header_size entries sig
      = (17 * entries.length + (sig.length + 1 + 8)
          + ((loop_range entries).map List.length).sum) % 2 ^ 64 := by
  unfold calc_uncompressed_header_size
  simp only [foldl_add_mod, Nat.mod_add_mod]

theorem sum_take_le (xs : List Nat) (k : Nat) : (xs.take k).sum ≤ xs.sum := by
  induction xs generalizing k with
  | nil => simp
  | cons x xs ih =>
    cases k with
    | zero => simp
    | succ k =>
      simp only [List.take_succ_cons, List.sum_cons]
      have := ih k
      omega

theorem sum_loop_range_le (entries : List (List Nat)) :
    ((loop_range entries).map List.length).sum ≤ (entries.map List.length).sum := by
  unfold loop_range
  rw [List.map_take]
  exact sum_take_le _ _

theorem length_table_bytes (es : List (pack_entry_t × List Nat)) :
    (table_bytes es).length = 17 * es.length + ((es.map Prod.snd).map List.length).sum := by
  induction es with
  | nil => rfl
  | cons e rest ih =>
    have hb : table_bytes (e :: rest) = entry_bytes e ++ table_bytes rest := rfl
    rw [hb, List.length_append, ih]
    simp only [entry_bytes, List.length_append, length_encode_tmp, List.length_cons,
      List.length_nil, List.map_cons, List.sum_cons]
    omega

theorem length_write_bodies {σ : Type} (z : zlib σ) (fs : List Nat → List Nat) (level : Int)
    (files : List (List Nat)) (w : file_stream_if) (entry_list : List pack_entry_t) :
    (write_bodies z fs level files w entry_list).2.length = entry_list.length + files.length := by
  induction files generalizing w entry_list with
  | nil => rfl
  | cons path rest ih =>
    rw [write_bodies, ih]
    simp only [List.length_append, List.length_cons, List.length_nil]
    omega

theorem length_entries_at {σ : Type} (z : zlib σ) (fs : List Nat → List Nat) (level : Int)
    (base : Nat) (files : List (List Nat)) :
    (entries_at z fs level base files).length = files.length := by
  induction files generalizing base with
  | nil => rfl
  | cons path rest ih => simp [entries_at, ih]

theorem map_snd_zip_of_length {α β : Type} (xs : List α) (ys : List β)
    (h : xs.length = ys.length) : (xs.zip ys).map Prod.snd = ys := by
  induction xs generalizing ys with
  | nil =>
    cases ys with
    | nil => rfl
    | cons y ys => simp at h
  | cons x xs ih =>
    cases ys with
    | nil => simp at h
    | cons y ys =>
      simp only [List.zip_cons_cons, List.map_cons, List.cons.injEq, true_and]
      exact ih ys (by simpa using h)

/-- Byte length of the catalog blob of an entry list that has one entry per visited file. -/
theorem length_catalog_bytes (file_list : List (List Nat)) (entry_list : List pack_entry_t)
    (h : entry_list.length = (loop_range file_list).length) :
    (catalog_bytes file_list.length (entry_list.zip (loop_range file_list))).length
      = 8 + 17 * (loop_range file_list).length
          + ((loop_range file_list).map List.length).sum := by
  unfold catalog_bytes
  rw [List.length_append, length_encode_tmp, length_table_bytes, map_snd_zip_of_length _ _ h,
    List.length_zip, h, Nat.min_self]
  omega

/-! ## The archives of runs in which every write is accepted -/

theorem overwrite_front (data hdr : List Nat) :
    overwrite data 0 hdr = hdr ++ data.drop hdr.length := by
  simp [overwrite]

theorem overwrite_middle (a b c b1 : List Nat) (h : b1.length = b.length) :
    overwrite (a ++ b ++ c) a.length b1 = a ++ b1 ++ c := by
  unfold overwrite
  have h1 : (a ++ b ++ c).take a.length = a := by
    rw [List.append_assoc]; exact List.take_left a _
  have h2 : (a ++ b ++ c).drop (a.length + b1.length) = c := by
    rw [h]; exact List.drop_left' (by simp)
  have h3 : a.length - (a ++ b ++ c).length = 0 := by
    simp only [List.length_append]; omega
  rw [h1, h2, h3]
  simp

theorem hdr_data_eq (file_list : List (List Nat)) (entry_list : List pack_entry_t) :
    hdr_data file_list entry_list
      = catalog_bytes file_list.length (entry_list.zip (loop_range file_list)) := by
  have h1 := encode_wrote file_list.length file_mem_writer_c rfl
  have hc : (encode file_list.length file_mem_writer_c).cap = none := h1.2.2.1
  have h2 := write_entries_wrote (entry_list.zip (loop_range file_list))
    (encode file_list.length file_mem_writer_c) h1.pos_le (by rw [hc]; rfl)
  have h3 := h1.trans h2
  unfold hdr_data
  rw [h3.1]
  exact overwrite_at_end [] _

/-- The layout pack leaves when the medium accepts every write and the patched header is not
longer than the reserved region: the header, what is left of the reserved zero bytes, and the
bodies; the recorded entries are those of the back-to-back layout from the reserved size on. -/
theorem pack_layout {σ : Type} (z : zlib σ) (fs : List Nat → List Nat) (cap : Option Nat)
    (file_list : List (List Nat)) (level : Int) (hne : file_list ≠ [])
    (hhdr : (v0_header z fs level file_list).length
        ≤ calc_uncompressed_header_size file_list cs_signature)
    (hroom : holds cap (calc_uncompressed_header_size file_list cs_signature
        + (bodies z fs level (loop_range file_list)).length) = true) :
    ∃ w, pack z fs cap file_list level
        = { ret := true, write_stream := some w, entry_list := v0_entries z fs level file_list }
      ∧ w.data = v0_header z fs level file_list
          ++ List.replicate (calc_uncompressed_header_size file_list cs_signature
              - (v0_header z fs level file_list).length) 0
          ++ bodies z fs level (loop_range file_list)
      ∧ ∀ q ∈ w.log, q.2 = q.1 := by
  have hemp : file_list.isEmpty = false := by
    cases file_list with
    | nil => exact absurd rfl hne
    | cons a l => rfl
  have h1 := (write_wrote ((file_stream_writer_c cap).seek 0)
    (List.replicate (calc_uncompressed_header_size file_list cs_signature) 0)
    (holds_mono hroom (by
      simp [file_stream_if.seek, file_stream_writer_c]))).1
  have h2 := write_bodies_spec z fs level (loop_range file_list) _ [] h1.pos_le (h1.holds (by
    simpa [file_stream_if.seek, file_stream_writer_c] using hroom))
  rcases hwb : write_bodies z fs level (loop_range file_list)
    (((file_stream_writer_c cap).seek 0).write
      (List.replicate (calc_uncompressed_header_size file_list cs_signature) 0)).1 []
    with ⟨w2, el⟩
  rw [hwb] at h2
  obtain ⟨h2, hel⟩ := h2
  simp only [List.nil_append] at h2 hel
  have h12 := h1.trans h2
  have hel2 : el = v0_entries z fs level file_list := by
    rw [hel, h1.2.1]
    simp [v0_entries, file_stream_if.seek, file_stream_writer_c]
  have hdata2 : w2.data = List.replicate (calc_uncompressed_header_size file_list cs_signature) 0
      ++ bodies z fs level (loop_range file_list) := by
    rw [h12.1]
    exact overwrite_at_end [] _
  have hroom3 : holds (w2.seek 0).cap ((w2.seek 0).pos + (v0_header z fs level file_list).length)
      = true := by
    have hc : (w2.seek 0).cap = cap := h12.2.2.1
    rw [hc]
    exact holds_mono hroom (by simp only [file_stream_if.seek]; omega)
  have hv : v0_header z fs level file_list
      = (cs_signature ++ [0]) ++ (encode_tmp file_list.length
          ++ table_bytes (el.zip (loop_range file_list))) := by
    rw [hel2]; rfl
  rw [hv] at hroom3
  simp only [List.length_append] at hroom3
  have h3 := encode_string_wrote cs_signature (w2.seek 0) (holds_mono hroom3 (by
    simp only [List.length_append, List.length_cons, List.length_nil]; omega))
  have h4 := encode_wrote file_list.length _ (h3.holds (holds_mono hroom3 (by
    simp only [List.length_append, length_encode_tmp]; omega)))
  have h5 := write_entries_wrote (el.zip (loop_range file_list)) _ h4.pos_le
    (h4.holds (h3.holds (holds_mono hroom3 (by
      simp only [List.length_append, length_encode_tmp]; omega))))
  have h345 := h3.trans (h4.trans h5)
  rw [← hv] at h345
  refine ⟨patch_header file_list el w2, ?_, ?_, ?_⟩
  · unfold pack
    rw [hemp]
    simp only [Bool.false_eq_true, if_false, hwb, hel2]
  · have hd : (patch_header file_list el w2).data
        = overwrite w2.data 0 (v0_header z fs level file_list) := h345.1
    rw [hd, overwrite_front, hdata2, List.drop_append_of_le_length (by simpa using hhdr),
      List.drop_replicate, List.append_assoc]
  · exact h345.log_full (h12.log_full (by simp [file_stream_if.seek, file_stream_writer_c]))

/-- The stream of pack_v1 when the body loop is done, on a medium that accepts the writes up
to there: signature, zero byte, the placeholder offset 0 and the bodies, with the cursor at
the end. -/
theorem v1_bodies_stage {σ : Type} (z : zlib σ) (fs : List Nat → List Nat) (cap : Option Nat)
    (file_list : List (List Nat)) (level : Int)
    (hroom : holds cap (v1_body_end z fs level file_list) = true) :
    (encode_string cs_signature_v1 ((file_stream_writer_c cap).seek 0)).tell = 9
    ∧ (write_bodies z fs level (loop_range file_list)
        (encode 0 (encode_string cs_signature_v1 ((file_stream_writer_c cap).seek 0))) []).2
        = v1_entries z fs level file_list
    ∧ (write_bodies z fs level (loop_range file_list)
        (encode 0 (encode_string cs_signature_v1 ((file_stream_writer_c cap).seek 0))) []).1.data
        = cs_signature_v1 ++ [0] ++ encode_tmp 0 ++ bodies z fs level (loop_range file_list)
    ∧ (write_bodies z fs level (loop_range file_list)
        (encode 0 (encode_string cs_signature_v1 ((file_stream_writer_c cap).seek 0))) []).1.pos
        = v1_body_end z fs level file_list
    ∧ (write_bodies z fs level (loop_range file_list)
        (encode 0 (encode_string cs_signature_v1 ((file_stream_writer_c cap).seek 0))) []).1.cap
        = cap
    ∧ ∀ q ∈ (write_bodies z fs level (loop_range file_list)
        (encode 0 (encode_string cs_signature_v1 ((file_stream_writer_c cap).seek 0))) []).1.log,
        q.2 = q.1 := by
  have hroom0 : holds ((file_stream_writer_c cap).seek 0).cap
      (((file_stream_writer_c cap).seek 0).pos + ((cs_signature_v1.length + 1) + (8
        + (bodies z fs level (loop_range file_list)).length))) = true :=
    holds_mono hroom (by
      simp only [file_stream_if.seek, file_stream_writer_c, v1_body_end, cs_signature_v1,
        List.length_cons, List.length_nil]
      omega)
  have h1 := encode_string_wrote cs_signature_v1 ((file_stream_writer_c cap).seek 0)
    (holds_mono hroom0 (by omega))
  have hroom1 := h1.holds (a := cs_signature_v1 ++ [0]) (by simpa using hroom0)
  have h2 := encode_wrote 0 _ (holds_mono hroom1 (by omega))
  have hroom2 := h2.holds (by simpa [length_encode_tmp] using hroom1)
  have h3 := write_bodies_spec z fs level (loop_range file_list) _ [] h2.pos_le
    (holds_mono hroom2 (by omega))
  obtain ⟨h3, hel⟩ := h3
  simp only [List.nil_append] at hel
  have h123 := h1.trans (h2.trans h3)
  have hpos2 : (encode 0 (encode_string cs_signature_v1 ((file_stream_writer_c cap).seek 0))).pos
      = 17 := by
    rw [h2.2.1, h1.2.1]; rfl
  refine ⟨h1.2.1, ?_, ?_, ?_, h123.2.2.1, ?_⟩
  · rw [hel, hpos2]; rfl
  · rw [h123.1]
    simp [List.append_assoc, file_stream_if.seek, file_stream_writer_c, overwrite]
  · rw [h3.2.1, hpos2]; rfl
  · exact h123.log_full (by simp [file_stream_if.seek, file_stream_writer_c])

/-- The header-offset patch of pack_v1 on a stream whose cursor is at the end of its data:
the 8 bytes at offsets 9..16 become the encoding of the cursor offset, every other byte stays,
and the cursor is back where it was. -/
theorem patch_header_offset_spec (w : file_stream_if) (a b c : List Nat)
    (hdata : w.data = a ++ b ++ c) (ha : a.length = 9) (hb : b.length = 8)
    (hroom : holds w.cap 17 = true) :
    (patch_header_offset 9 w).data = a ++ encode_tmp w.pos ++ c
    ∧ (patch_header_offset 9 w).pos = w.pos
    ∧ (patch_header_offset 9 w).cap = w.cap
    ∧ ((∀ q ∈ w.log, q.2 = q.1) → ∀ q ∈ (patch_header_offset 9 w).log, q.2 = q.1) := by
  have h4 := encode_wrote w.tell (w.seek 9) hroom
  refine ⟨?_, rfl, h4.2.2.1, fun hl => h4.log_full hl⟩
  show (encode w.tell (w.seek 9)).data = _
  rw [h4.1]
  show overwrite w.data 9 (encode_tmp w.pos) = _
  rw [hdata, ← ha]
  exact overwrite_middle a b c _ (by rw [length_encode_tmp, hb])

/-- The layout pack_v1 leaves when the medium accepts every write: signature and zero byte,
the u64 offset of the end of the bodies, the bodies, the u64 catalog size, the compressed
catalog blob. -/
theorem pack_v1_layout {σ : Type} (z : zlib σ) (fs : List Nat → List Nat) (cap : Option Nat)
    (file_list : List (List Nat)) (level : Int) (hne : file_list ≠ [])
    (hroom : holds cap (v1_body_end z fs level file_list + 8
        + (compressed z level (v1_catalog z fs level file_list)).length) = true) :
    ∃ w, pack_v1 z fs cap file_list level
        = { ret := true, write_stream := some w, entry_list := v1_entries z fs level file_list }
      ∧ w.data = cs_signature_v1 ++ [0] ++ encode_tmp (v1_body_end z fs level file_list)
          ++ bodies z fs level (loop_range file_list)
          ++ encode_tmp (uncomp_hdr_sz file_list)
          ++ compressed z level (v1_catalog z fs level file_list)
      ∧ ∀ q ∈ w.log, q.2 = q.1 := by
  have hemp : file_list.isEmpty = false := by
    cases file_list with
    | nil => exact absurd rfl hne
    | cons a l => rfl
  obtain ⟨hpos1, hel, hdata3, hpos3, hcap3, hlog3⟩ :=
    v1_bodies_stage z fs cap file_list level (holds_mono hroom (by omega))
  rcases hwb : write_bodies z fs level (loop_range file_list)
    (encode 0 (encode_string cs_signature_v1 ((file_stream_writer_c cap).seek 0))) []
    with ⟨w3, el⟩
  rw [hwb] at hel hdata3 hpos3 hcap3 hlog3
  simp only at hel hdata3 hpos3 hcap3 hlog3
  have hend3 : w3.pos = w3.data.length := by
    rw [hpos3, hdata3]
    simp only [v1_body_end, length_encode_tmp, cs_signature_v1, List.length_append,
      List.length_cons, List.length_nil]
  obtain ⟨hdata5, hpos5, hcap5, hlog5⟩ := patch_header_offset_spec w3
    (cs_signature_v1 ++ [0]) (encode_tmp 0) (bodies z fs level (loop_range file_list))
    hdata3 rfl rfl (by
      rw [hcap3]; exact holds_mono hroom (by simp only [v1_body_end]; omega))
  rw [hpos3] at hdata5
  have hwf5 : (patch_header_offset 9 w3).pos ≤ (patch_header_offset 9 w3).data.length := by
    rw [hpos5, hend3, hdata5, hdata3]
    simp only [length_encode_tmp, List.length_append]
    exact Nat.le_refl _
  have hroom5 : holds (patch_header_offset 9 w3).cap ((patch_header_offset 9 w3).pos + (8
      + (compressed z level (v1_catalog z fs level file_list)).length)) = true := by
    rw [hcap5, hcap3, hpos5, hpos3]
    exact holds_mono hroom (by omega)
  have h6 := encode_wrote (uncomp_hdr_sz file_list) _ (holds_mono hroom5 (by omega))
  have hcat : hdr_data file_list el = v1_catalog z fs level file_list := by
    rw [hdr_data_eq, hel]; rfl
  have h7 := compress_wrote z level (v1_catalog z fs level file_list) _ h6.pos_le
    (h6.holds (by simpa [length_encode_tmp] using hroom5))
  have h67 := h6.trans h7
  refine ⟨(compress z (file_stream_reader_c (v1_catalog z fs level file_list))
    (encode (uncomp_hdr_sz file_list) (patch_header_offset 9 w3)) level).2.2, ?_, ?_, ?_⟩
  · unfold pack_v1
    rw [hemp]
    rw [hel] at hcat
    simp only [Bool.false_eq_true, if_false, hwb, hpos1, file_mem_reader_c,
      file_stream_reader_c, hel, hcat]
  · rw [h67.1]
    have hlen : (patch_header_offset 9 w3).pos = (patch_header_offset 9 w3).data.length := by
      rw [hpos5, hend3, hdata5, hdata3]
      simp only [length_encode_tmp, List.length_append]
    rw [hlen, overwrite_at_end, hdata5]
    simp [List.append_assoc]
  · exact h67.log_full (hlog5 hlog3)

/-! ## Entry regions -/

theorem region_append (pre mid post : List Nat) :
    region (pre ++ mid ++ post) pre.length (pre.length + mid.length) = mid := by
  unfold region
  rw [List.append_assoc, List.drop_left, Nat.add_sub_cancel_left, List.take_left]

theorem bodies_cons {σ : Type} (z : zlib σ) (fs : List Nat → List Nat) (level : Int)
    (path : List Nat) (rest : List (List Nat)) :
    bodies z fs level (path :: rest)
      = compressed z level (fs path) ++ bodies z fs level rest := rfl

theorem entries_at_head {σ : Type} (z : zlib σ) (fs : List Nat → List Nat) (level : Int)
    (base : Nat) (files : List (List Nat)) (e : pack_entry_t)
    (h : (entries_at z fs level base files)[0]? = some e) : e.addr = base := by
  cases files with
  | nil => simp [entries_at] at h
  | cons path rest =>
    simp only [entries_at, List.getElem?_cons_zero, Option.some.injEq] at h
    rw [← h]

/-- In a byte array that holds the bodies of `files` from offset `base` on, the region of
each entry of the back-to-back layout, up to the next entry or to the end of the bodies, is
the compressor output of its file, and its size field is the length of that file. -/
theorem entries_region {σ : Type} (z : zlib σ) (fs : List Nat → List Nat) (level : Int)
    (files : List (List Nat)) (base : Nat) (pre post : List Nat) (hpre : pre.length = base)
    (i : Nat) (e : pack_entry_t) (h : (entries_at z fs level base files)[i]? = some e) :
    ∃ path, files[i]? = some path
      ∧ e.uncompressed_size = (fs path).length
      ∧ region (pre ++ bodies z fs level files ++ post) e.addr
          (region_end (entries_at z fs level base files) i
            (base + (bodies z fs level files).length))
        = compressed z level (fs path) := by
  induction files generalizing base pre i with
  | nil => simp [entries_at] at h
  | cons path rest ih =>
    cases i with
    | zero =>
      simp only [entries_at, List.getElem?_cons_zero, Option.some.injEq] at h
      refine ⟨path, List.getElem?_cons_zero, by rw [← h], ?_⟩
      have hend : region_end (entries_at z fs level base (path :: rest)) 0
          (base + (bodies z fs level (path :: rest)).length)
          = base + (compressed z level (fs path)).length := by
        unfold region_end
        simp only [entries_at, Nat.zero_add, List.getElem?_cons_succ]
        cases hr : (entries_at z fs level (base + (compressed z level (fs path)).length)
          rest)[0]? with
        | none =>
          cases rest with
          | nil => simp [bodies]
          | cons p2 r2 => simp [entries_at] at hr
        | some e2 => exact entries_at_head z fs level _ rest e2 hr
      rw [hend, ← h, bodies_cons, ← hpre]
      simp only
      rw [← List.append_assoc pre, List.append_assoc (pre ++ _)]
      exact region_append pre _ _
    | succ k =>
      simp only [entries_at, List.getElem?_cons_succ] at h
      obtain ⟨p, hp, hs, hr⟩ := ih (base + (compressed z level (fs path)).length)
        (pre ++ compressed z level (fs path)) (by rw [List.length_append, hpre]) k h
      refine ⟨p, by simpa using hp, hs, ?_⟩
      have hend : region_end (entries_at z fs level base (path :: rest)) (k + 1)
          (base + (bodies z fs level (path :: rest)).length)
          = region_end (entries_at z fs level (base + (compressed z level (fs path)).length)
              rest) k
              (base + (compressed z level (fs path)).length + (bodies z fs level rest).length)
          := by
        unfold region_end
        simp only [entries_at, List.getElem?_cons_succ, bodies_cons, List.length_append,
          Nat.add_assoc]
      rw [hend, bodies_cons, ← List.append_assoc pre]
      exact hr

theorem getElem?_loop_range {α : Type} (xs : List α) (i : Nat) (x : α)
    (h : (loop_range xs)[i]? = some x) : xs[i]? = some x := by
  unfold loop_range at h
  rw [List.getElem?_take] at h
  split at h
  · exact h
  · exact absurd h (by simp)

theorem v0_header_length {σ : Type} (z : zlib σ) (fs : List Nat → List Nat) (level : Int)
    (file_list : List (List Nat)) :
    (v0_header z fs level file_list).length
      = 17 + 17 * (loop_range file_list).length
          + ((loop_range file_list).map List.length).sum := by
  unfold v0_header
  rw [List.length_append, length_catalog_bytes file_list (v0_entries z fs level file_list)
    (length_entries_at _ _ _ _ _)]
  simp only [cs_signature, List.length_append, List.length_cons, List.length_nil]
  omega

theorem v0_header_length_le {σ : Type} (z : zlib σ) (fs : List Nat → List Nat) (level : Int)
    (file_list : List (List Nat)) (h64 : header_size_formula file_list cs_signature < 2 ^ 64) :
    (v0_header z fs level file_list).length
      ≤ calc_uncompressed_header_size file_list cs_signature := by
  have h1 := sum_loop_range_le file_list
  have h2 := length_loop_range_le file_list
  have hsig : cs_signature.length = 8 := rfl
  rw [v0_header_length, calc_eq_mod]
  unfold header_size_formula at h64
  rw [hsig] at h64 ⊢
  rw [Nat.mod_eq_of_lt (by omega)]
  omega

theorem deflate_out_stored (fuel : Nat) (rest : List Nat)
    (h : rest.length / chunk_size < fuel) :
    deflate_out stored fuel () rest = rest ++ [255] := by
  induction fuel generalizing rest with
  | zero => exact absurd h (Nat.not_lt_zero _)
  | succ fuel ih =>
    have hc : chunk_size = 16384 := rfl
    have hne : Z_NO_FLUSH ≠ Z_FINISH := by decide
    rw [deflate_out]
    by_cases hfin : rest.length ≤ chunk_size
    · simp only [hfin, decide_True, if_true, stored, ne_eq, not_true_eq_false, if_false]
      rw [List.take_of_length_le hfin]
    · simp only [hfin, decide_False, Bool.false_eq_true, if_false, ne_eq, hne,
        not_false_eq_true, if_true]
      rw [ih (rest.drop chunk_size) (by
        rw [List.length_drop]
        rw [hc] at h hfin ⊢
        omega)]
      simp only [stored, hne, if_false]
      rw [← List.append_assoc, List.take_append_drop]

theorem compressed_stored (level : Int) (content : List Nat) :
    compressed stored level content = content ++ [255] := by
  rw [compressed_eq]
  exact deflate_out_stored _ content (Nat.lt_succ_self _)

/-! ## Round trip of the entry regions -/

/-- C1: for every non-empty scanned file list, on a medium that accepts every write (it holds
the archive) and with the compressor taken as the function `compressed z level`, in the
archive of pack (v0) and of pack_v1 (v1) there is one recorded entry per file the loops visit,
the bytes from the recorded addr of entry i up to the recorded addr of entry i+1 (for the last
entry up to the end of the bodies: the end of the file in v0, the offset v1_body_end whose
encoding is stored in the header-offset field in v1) are the compressor output for file i, and
the recorded uncompressed_size is the byte length of file i; so every left inverse of the
compressor applied to the region gives back the bytes of file i, uncompressed_size of them.
The v0 half assumes that the header size does not wrap around 2^64. -/
theorem packed_regions_roundtrip {σ : Type} (z : zlib σ) (fs : List Nat → List Nat)
    (cap : Option Nat) (file_list : List (List Nat)) (level : Int)
    (inflate : List Nat → List Nat) (hne : file_list ≠ [])
    (h64 : header_size_formula file_list cs_signature < 2 ^ 64)
    (hroom0 : holds cap (v0_size z fs level file_list) = true)
    (hroom1 : holds cap (v1_size z fs level file_list) = true)
    (hinv : ∀ content, inflate (compressed z level content) = content) :
    (∃ w, (pack z fs cap file_list level).write_stream = some w
      ∧ (∀ q ∈ w.log, q.2 = q.1)
      ∧ (pack z fs cap file_list level).entry_list.length = (loop_range file_list).length
      ∧ ∀ i e, (pack z fs cap file_list level).entry_list[i]? = some e →
        ∃ path, file_list[i]? = some path
          ∧ region w.data e.addr
              (region_end (pack z fs cap file_list level).entry_list i w.data.length)
            = compressed z level (fs path)
          ∧ e.uncompressed_size = (fs path).length
          ∧ inflate (region w.data e.addr
              (region_end (pack z fs cap file_list level).entry_list i w.data.length))
            = fs path
          ∧ (inflate (region w.data e.addr
              (region_end (pack z fs cap file_list level).entry_list i w.data.length))).length
            = e.uncompressed_size)
    ∧ (∃ w, (pack_v1 z fs cap file_list level).write_stream = some w
      ∧ (∀ q ∈ w.log, q.2 = q.1)
      ∧ (pack_v1 z fs cap file_list level).entry_list.length = (loop_range file_list).length
      ∧ region w.data 9 17 = encode_tmp (v1_body_end z fs level file_list)
      ∧ ∀ i e, (pack_v1 z fs cap file_list level).entry_list[i]? = some e →
        ∃ path, file_list[i]? = some path
          ∧ region w.data e.addr
              (region_end (pack_v1 z fs cap file_list level).entry_list i
                (v1_body_end z fs level file_list))
            = compressed z level (fs path)
          ∧ e.uncompressed_size = (fs path).length
          ∧ inflate (region w.data e.addr
              (region_end (pack_v1 z fs cap file_list level).entry_list i
                (v1_body_end z fs level file_list)))
            = fs path
          ∧ (inflate (region w.data e.addr
              (region_end (pack_v1 z fs cap file_list level).entry_list i
                (v1_body_end z fs level file_list)))).length
            = e.uncompressed_size) := by
  constructor
  · have hhdr := v0_header_length_le z fs level file_list h64
    obtain ⟨w, hp, hd, hl⟩ := pack_layout z fs cap file_list level hne hhdr hroom0
    refine ⟨w, by rw [hp], hl, by rw [hp]; exact length_entries_at _ _ _ _ _, ?_⟩
    intro i e he
    rw [hp] at he ⊢
    simp only at he ⊢
    have hpre : (v0_header z fs level file_list
        ++ List.replicate (calc_uncompressed_header_size file_list cs_signature
            - (v0_header z fs level file_list).length) 0).length
        = calc_uncompressed_header_size file_list cs_signature := by
      rw [List.length_append, List.length_replicate]
      omega
    obtain ⟨path, hpath, hsz, hreg⟩ := entries_region z fs level (loop_range file_list) _ _ []
      hpre i e he
    have hlen : w.data.length = calc_uncompressed_header_size file_list cs_signature
        + (bodies z fs level (loop_range file_list)).length := by
      rw [hd, List.length_append, hpre]
    rw [List.append_nil, ← hd, ← hlen] at hreg
    have hreg2 : region w.data e.addr
        (region_end (v0_entries z fs level file_list) i w.data.length)
        = compressed z level (fs path) := hreg
    refine ⟨path, getElem?_loop_range _ _ _ hpath, hreg2, hsz, ?_, ?_⟩
    · rw [hreg2, hinv]
    · rw [hreg2, hinv, hsz]
  · obtain ⟨w, hp, hd, hl⟩ := pack_v1_layout z fs cap file_list level hne hroom1
    refine ⟨w, by rw [hp], hl, by rw [hp]; exact length_entries_at _ _ _ _ _, ?_, ?_⟩
    · rw [hd]
      have h9 := region_append (cs_signature_v1 ++ [0])
        (encode_tmp (v1_body_end z fs level file_list))
        (bodies z fs level (loop_range file_list) ++ (encode_tmp (uncomp_hdr_sz file_list)
          ++ compressed z level (v1_catalog z fs level file_list)))
      simp only [List.append_assoc] at h9 ⊢
      exact h9
    · intro i e he
      rw [hp] at he ⊢
      simp only at he ⊢
      obtain ⟨path, hpath, hsz, hreg⟩ := entries_region z fs level (loop_range file_list) 17
        (cs_signature_v1 ++ [0] ++ encode_tmp (v1_body_end z fs level file_list))
        (encode_tmp (uncomp_hdr_sz file_list)
          ++ compressed z level (v1_catalog z fs level file_list))
        (by simp [length_encode_tmp, cs_signature_v1]) i e he
      rw [← List.append_assoc, ← hd] at hreg
      refine ⟨path, getElem?_loop_range _ _ _ hpath, hreg, hsz, ?_, ?_⟩
      · have hreg2 : region w.data e.addr
            (region_end (v1_entries z fs level file_list) i (v1_body_end z fs level file_list))
            = compressed z level (fs path) := hreg
        rw [hreg2, hinv]
      · have hreg2 : region w.data e.addr
            (region_end (v1_entries z fs level file_list) i (v1_body_end z fs level file_list))
            = compressed z level (fs path) := hreg
        rw [hreg2, hinv, hsz]

/-- Witness of C1: two files "a" and "bc" (each file holds its own name), the toy deflater,
an unlimited medium; dropping the end marker inverts the toy deflater, and applied to the
region [54, 56) of the first entry it gives back the file "a". -/
theorem packed_regions_roundtrip_witness :
    ∃ w, (pack stored id none [[97], [98, 99]] 9).write_stream = some w
      ∧ (pack stored id none [[97], [98, 99]] 9).entry_list[0]? = some ⟨54, 1⟩
      ∧ List.dropLast (region w.data 54 56) = [97] := by
  obtain ⟨⟨w, hw, _, _, hall⟩, _⟩ := packed_regions_roundtrip stored id none [[97], [98, 99]] 9
    List.dropLast (by decide) (by decide) (by decide) (by decide)
    (fun c => by rw [compressed_stored]; exact List.dropLast_concat)
  obtain ⟨path, hpath, _, _, hinf, _⟩ := hall 0 ⟨54, 1⟩ (by decide)
  have hp : path = [97] := by
    simp only [List.getElem?_cons_zero, Option.some.injEq] at hpath
    exact hpath.symm
  have hend : region_end (pack stored id none [[97], [98, 99]] 9).entry_list 0 w.data.length
      = 56 := rfl
  rw [hend] at hinf
  exact ⟨w, hw, by decide, by rw [hinf, hp]; rfl⟩

/-! ## Byte encoder: results -/

theorem and_255 (x : Nat) : x &&& 255 = x % 256 :=
  Nat.and_pow_two_sub_one_eq_mod x 8

theorem encode_tmp_eq (v : Nat) (hv : v < 2 ^ 64) :
    encode_tmp v = [v / 256 ^ 7 % 256, v / 256 ^ 6 % 256, v / 256 ^ 5 % 256, v / 256 ^ 4 % 256,
      v / 256 ^ 3 % 256, v / 256 ^ 2 % 256, v / 256 ^ 1 % 256, v / 256 ^ 0 % 256] := by
  unfold encode_tmp
  simp only [Nat.mod_eq_of_lt hv, Nat.shiftRight_eq_div_pow, and_255, Nat.mod_mod]
  norm_num

theorem be_value_encode_tmp (v : Nat) (hv : v < 2 ^ 64) : be_value (encode_tmp v) = v := by
  rw [encode_tmp_eq v hv]
  simp only [be_value, List.foldl_cons, List.foldl_nil]
  norm_num at hv ⊢
  omega

/-- C8: for every unsigned 64-bit value v, encode(uint64_t) issues exactly one write, of 8
bytes; these are b_k = (v / 256^(7-k)) mod 256 for k = 0..7, most significant first, and
their big-endian value is v; a sink that accepts them holds them at the cursor afterwards. -/
theorem encode_u64_big_endian (v : Nat) (wr : file_stream_if) (hv : v < 2 ^ 64) :
    (encode v wr).log = wr.log ++ [(8, wr.accepted 8)]
    ∧ encode v wr = (wr.write [v / 256 ^ 7 % 256, v / 256 ^ 6 % 256, v / 256 ^ 5 % 256,
        v / 256 ^ 4 % 256, v / 256 ^ 3 % 256, v / 256 ^ 2 % 256, v / 256 ^ 1 % 256,
        v / 256 ^ 0 % 256]).1
    ∧ be_value [v / 256 ^ 7 % 256, v / 256 ^ 6 % 256, v / 256 ^ 5 % 256,
        v / 256 ^ 4 % 256, v / 256 ^ 3 % 256, v / 256 ^ 2 % 256, v / 256 ^ 1 % 256,
        v / 256 ^ 0 % 256] = v
    ∧ (holds wr.cap (wr.pos + 8) = true →
        (encode v wr).data = overwrite wr.data wr.pos [v / 256 ^ 7 % 256, v / 256 ^ 6 % 256,
          v / 256 ^ 5 % 256, v / 256 ^ 4 % 256, v / 256 ^ 3 % 256, v / 256 ^ 2 % 256,
          v / 256 ^ 1 % 256, v / 256 ^ 0 % 256]
        ∧ (encode v wr).pos = wr.pos + 8) := by
  have hb := be_value_encode_tmp v hv
  rw [encode_tmp_eq v hv] at hb
  refine ⟨rfl, ?_, hb, ?_⟩
  · unfold encode
    rw [encode_tmp_eq v hv]
  · intro h
    have hw := encode_wrote v wr h
    rw [encode_tmp_eq v hv] at hw
    exact ⟨hw.1, hw.2.1⟩

/-- Witness of C8 at v = 0x0102030405060708 on an empty memory stream. -/
theorem encode_u64_big_endian_witness :
    (72623859790382856 < 2 ^ 64)
    ∧ (encode 72623859790382856 file_mem_writer_c).data = [1, 2, 3, 4, 5, 6, 7, 8] :=
  ⟨by decide,
   ((encode_u64_big_endian 72623859790382856 file_mem_writer_c (by decide)).2.2.2
      (by decide)).1.trans (by decide)⟩

theorem strlen_c_str (s : List Nat) (h : 0 ∉ s) : strlen (c_str s) = s.length := by
  unfold strlen c_str
  induction s with
  | nil => rfl
  | cons a l ih =>
    have ha : a ≠ 0 := fun h0 => h (by simp [h0])
    have hl : 0 ∉ l := fun h0 => h (List.mem_cons_of_mem _ h0)
    simp only [List.cons_append, List.takeWhile_cons, bne_iff_ne, ne_eq, ha, not_false_eq_true,
      if_true, List.length_cons, ih hl]

theorem encode_string_eq (s : List Nat) (wr : file_stream_if) :
    encode_string s wr = ((wr.write s).1.write [0]).1 := by
  have hs : (c_str s).take s.length = s := List.take_left s [0]
  unfold encode_string
  rw [hs]

theorem requested_write (w : file_stream_if) (buf : List Nat) :
    requested (w.write buf).1.log = requested w.log + buf.length := by
  simp [file_stream_if.write, requested]

theorem requested_encode_string (s : List Nat) (w : file_stream_if) :
    requested (encode_string s w).log = requested w.log + (s.length + 1) := by
  rw [encode_string_eq, requested_write, requested_write]
  simp only [List.length_cons, List.length_nil]
  omega

/-- C9: for every string s, encode(std::string) issues two writes, of the length(s) bytes of
s and of one zero byte, length(s) + 1 bytes in all; a sink that accepts them holds s followed
by one zero byte at the cursor afterwards; for a string without a zero byte the const char*
overload, given the buffer c_str(s), does the same. -/
theorem encode_string_bytes (s : List Nat) (wr : file_stream_if) :
    encode_string s wr = ((wr.write s).1.write [0]).1
    ∧ (encode_string s wr).log
        = wr.log ++ [(s.length, wr.accepted s.length), (1, (wr.write s).1.accepted 1)]
    ∧ requested (encode_string s wr).log = requested wr.log + (s.length + 1)
    ∧ (holds wr.cap (wr.pos + (s.length + 1)) = true →
        (encode_string s wr).data = overwrite wr.data wr.pos (s ++ [0])
        ∧ (encode_string s wr).pos = wr.pos + (s.length + 1))
    ∧ (0 ∉ s → encode_cstr (c_str s) wr = encode_string s wr) := by
  have hs : (c_str s).take s.length = s := List.take_left s [0]
  have he := encode_string_eq s wr
  refine ⟨he, ?_, requested_encode_string s wr, ?_, ?_⟩
  · rw [he]
    simp [file_stream_if.write]
  · intro h
    have hw := encode_string_wrote s wr h
    exact ⟨hw.1, by rw [hw.2.1]; simp⟩
  · intro h0
    unfold encode_cstr
    rw [strlen_c_str s h0, hs, he]

/-- Witness of C9 for the string "ab" on an empty memory stream. -/
theorem encode_string_bytes_witness :
    (encode_string [97, 98] file_mem_writer_c).data = [97, 98, 0]
    ∧ encode_cstr (c_str [97, 98]) file_mem_writer_c = encode_string [97, 98] file_mem_writer_c :=
  ⟨((encode_string_bytes [97, 98] file_mem_writer_c).2.2.2.1 (by decide)).1.trans (by decide),
   (encode_string_bytes [97, 98] file_mem_writer_c).2.2.2.2 (by decide)⟩

/-! ## Header size against the bytes written -/

theorem requested_encode (v : Nat) (w : file_stream_if) :
    requested (encode v w).log = requested w.log + 8 :=
  requested_write w (encode_tmp v)

theorem requested_write_entries (es : List (pack_entry_t × List Nat)) (w : file_stream_if) :
    requested (write_entries es w).log = requested w.log + (table_bytes es).length := by
  induction es generalizing w with
  | nil => rfl
  | cons e rest ih =>
    obtain ⟨e, path⟩ := e
    have hb : table_bytes ((e, path) :: rest) = entry_bytes (e, path) ++ table_bytes rest := rfl
    rw [write_entries, ih, requested_encode_string, requested_encode,
      requested_encode, hb]
    simp only [entry_bytes, List.length_append, length_encode_tmp, List.length_cons,
      List.length_nil]
    omega

/-- The number of bytes the header patch of pack asks to write. -/
theorem requested_patch_header (file_list : List (List Nat)) (entry_list : List pack_entry_t)
    (w : file_stream_if) :
    requested (patch_header file_list entry_list w).log
      = requested w.log + (cs_signature.length + 1 + 8
          + (table_bytes (entry_list.zip (loop_range file_list))).length) := by
  unfold patch_header
  simp only [requested_write_entries, requested_encode, requested_encode_string]
  simp only [file_stream_if.seek]
  omega

theorem calc_eq_formula (file_list : List (List Nat)) (sig : List Nat)
    (hn : file_list.length < 2 ^ 32) (h64 : header_size_formula file_list sig < 2 ^ 64) :
    calc_uncompressed_header_size file_list sig = header_size_formula file_list sig := by
  rw [calc_eq_mod, loop_range_of_lt file_list hn]
  unfold header_size_formula at h64 ⊢
  rw [Nat.mod_eq_of_lt (by omega)]
  omega

/-- The positive part of C2: for a list of fewer than 2^32 paths whose header size is below
2^64, calc_uncompressed_header_size is the size the specification states, and the header patch
of pack asks to write exactly that many bytes for the entry list that the body loop built. -/
theorem header_size_matches_patch {σ : Type} (z : zlib σ) (fs : List Nat → List Nat)
    (level : Int) (file_list : List (List Nat)) (w0 w : file_stream_if)
    (hn : file_list.length < 2 ^ 32)
    (h64 : header_size_formula file_list cs_signature < 2 ^ 64) :
    calc_uncompressed_header_size file_list cs_signature
      = header_size_formula file_list cs_signature
    ∧ requested (patch_header file_list
          (write_bodies z fs level (loop_range file_list) w0 []).2 w).log
        = requested w.log + calc_uncompressed_header_size file_list cs_signature := by
  have hc := calc_eq_formula file_list cs_signature hn h64
  refine ⟨hc, ?_⟩
  have hl : (write_bodies z fs level (loop_range file_list) w0 []).2.length
      = (loop_range file_list).length := by
    rw [length_write_bodies]; simp
  rw [requested_patch_header, length_table_bytes, map_snd_zip_of_length _ _ hl, List.length_zip,
    hl, Nat.min_self, hc, loop_range_of_lt file_list hn]
  unfold header_size_formula
  omega

theorem header_size_matches_patch_witness :
    requested (patch_header [[97], [98, 99]]
        (write_bodies stored id 9 (loop_range [[97], [98, 99]]) file_mem_writer_c []).2
        file_mem_writer_c).log
      = requested file_mem_writer_c.log
        + calc_uncompressed_header_size [[97], [98, 99]] cs_signature :=
  (header_size_matches_patch stored id 9 [[97], [98, 99]] file_mem_writer_c file_mem_writer_c
    (by decide) (by decide)).2

theorem length_many_paths (n : Nat) : (many_paths n).length = n := by
  rw [many_paths, List.length_map, List.length_range]

theorem loop_range_of_wrap {α : Type} (xs : List α) (h : xs.length % 2 ^ 32 = 0) :
    loop_range xs = [] := by
  unfold loop_range
  rw [h]
  rfl

theorem calc_of_wrap (file_list : List (List Nat)) (sig : List Nat)
    (h : file_list.length % 2 ^ 32 = 0) :
    calc_uncompressed_header_size file_list sig
      = (17 * file_list.length + (sig.length + 1 + 8)) % 2 ^ 64 := by
  rw [calc_eq_mod, loop_range_of_wrap file_list h]
  rfl

theorem pack_entry_list_of_wrap {σ : Type} (z : zlib σ) (fs : List Nat → List Nat)
    (cap : Option Nat) (file_list : List (List Nat)) (level : Int)
    (h : file_list.length % 2 ^ 32 = 0) : (pack z fs cap file_list level).entry_list = [] := by
  unfold pack
  rw [loop_range_of_wrap file_list h]
  split <;> rfl

/-- C2, the code at a list of 2^32 paths: calc_uncompressed_header_size returns
17 * 2^32 + 17 = 73014444049, the body loop of pack records no entry, and the header patch
asks to write 17 bytes only. -/
theorem header_patch_at_4294967296_paths :
    calc_uncompressed_header_size (many_paths 4294967296) cs_signature = 73014444049
    ∧ (pack stored id none (many_paths 4294967296) 9).entry_list = []
    ∧ ∀ w, requested (patch_header (many_paths 4294967296) [] w).log = requested w.log + 17 := by
  have hlen : (many_paths 4294967296).length % 2 ^ 32 = 0 := by
    rw [length_many_paths]
    decide
  refine ⟨?_, pack_entry_list_of_wrap stored id none _ 9 hlen, ?_⟩
  · rw [calc_of_wrap _ _ hlen, length_many_paths]
    rfl
  · intro w
    rw [requested_patch_header, loop_range_of_wrap _ hlen]
    rfl

/-! ## The v0 header region -/

/-- The positive part of C3: for a non-empty list of fewer than 2^32 files whose header size
is below 2^64, on a medium that accepts every write, the archive of pack is the signature, one
zero byte, the u64 count, the entry table in scan order and then the bodies in the same order;
the header is exactly calc_uncompressed_header_size bytes long and the entries are those of
the back-to-back layout that starts at that offset. -/
theorem v0_layout {σ : Type} (z : zlib σ) (fs : List Nat → List Nat) (cap : Option Nat)
    (file_list : List (List Nat)) (level : Int) (hne : file_list ≠ [])
    (hn : file_list.length < 2 ^ 32)
    (h64 : header_size_formula file_list cs_signature < 2 ^ 64)
    (hroom : holds cap (v0_size z fs level file_list) = true) :
    ∃ w, pack z fs cap file_list level
        = { ret := true, write_stream := some w,
            entry_list := entries_at z fs level
              (calc_uncompressed_header_size file_list cs_signature) file_list }
      ∧ w.data = cs_signature ++ [0] ++ encode_tmp file_list.length
          ++ table_bytes ((entries_at z fs level
              (calc_uncompressed_header_size file_list cs_signature) file_list).zip file_list)
          ++ bodies z fs level file_list
      ∧ (cs_signature ++ [0] ++ encode_tmp file_list.length
          ++ table_bytes ((entries_at z fs level
              (calc_uncompressed_header_size file_list cs_signature) file_list).zip
                file_list)).length
        = calc_uncompressed_header_size file_list cs_signature
      ∧ ∀ q ∈ w.log, q.2 = q.1 := by
  have hhdr := v0_header_length_le z fs level file_list h64
  obtain ⟨w, hp, hd, hl⟩ := pack_layout z fs cap file_list level hne hhdr hroom
  have hlen : (v0_header z fs level file_list).length
      = calc_uncompressed_header_size file_list cs_signature := by
    rw [v0_header_length, calc_eq_formula file_list cs_signature hn h64,
      loop_range_of_lt file_list hn]
    unfold header_size_formula
    simp only [cs_signature, List.length_cons, List.length_nil]
  have hv : v0_header z fs level file_list
      = cs_signature ++ [0] ++ encode_tmp file_list.length
          ++ table_bytes ((entries_at z fs level
              (calc_uncompressed_header_size file_list cs_signature) file_list).zip
                file_list) := by
    unfold v0_header v0_entries catalog_bytes
    rw [loop_range_of_lt file_list hn]
    simp only [List.append_assoc]
  rw [hlen, Nat.sub_self, List.replicate_zero, List.append_nil, hv,
    loop_range_of_lt file_list hn] at hd
  rw [hv] at hlen
  refine ⟨w, ?_, hd, hlen, hl⟩
  rw [hp]
  unfold v0_entries
  rw [loop_range_of_lt file_list hn]

theorem v0_layout_witness :
    ∃ w, pack stored id none [[97], [98, 99]] 9
        = { ret := true, write_stream := some w,
            entry_list := [⟨54, 1⟩, ⟨56, 2⟩] }
      ∧ w.data = [74, 86, 70, 83, 48, 49, 48, 48, 0, 0, 0, 0, 0, 0, 0, 0, 2,
          0, 0, 0, 0, 0, 0, 0, 54, 0, 0, 0, 0, 0, 0, 0, 1, 97, 0,
          0, 0, 0, 0, 0, 0, 0, 56, 0, 0, 0, 0, 0, 0, 0, 2, 98, 99, 0,
          97, 255, 98, 99, 255] := by
  obtain ⟨w, hp, hd, _, _⟩ := v0_layout stored id none [[97], [98, 99]] 9 (by decide)
    (by decide) (by decide) (by decide)
  exact ⟨w, by rw [hp]; rfl, hd.trans (by decide)⟩

theorem many_paths_ne_nil (n : Nat) (h : 0 < n) : many_paths n ≠ [] := by
  intro h0
  have := length_many_paths n
  rw [h0] at this
  simp at this
  omega

/-- The archive of pack for a list whose length is a multiple of 2^32, on an unlimited
medium: the loops visit no file, so the header holds the count and nothing else. -/
theorem pack_of_wrap {σ : Type} (z : zlib σ) (fs : List Nat → List Nat)
    (file_list : List (List Nat)) (level : Int) (hne : file_list ≠ [])
    (hw : file_list.length % 2 ^ 32 = 0)
    (h17 : 17 ≤ calc_uncompressed_header_size file_list cs_signature) :
    ∃ w, pack z fs none file_list level
        = { ret := true, write_stream := some w, entry_list := [] }
      ∧ w.data = cs_signature ++ [0] ++ encode_tmp file_list.length
          ++ List.replicate (calc_uncompressed_header_size file_list cs_signature - 17) 0 := by
  have hl := loop_range_of_wrap file_list hw
  have hv : v0_header z fs level file_list
      = cs_signature ++ [0] ++ encode_tmp file_list.length := by
    unfold v0_header v0_entries catalog_bytes
    rw [hl]
    simp [entries_at, table_bytes]
  have hvl : (v0_header z fs level file_list).length = 17 := by
    rw [hv]; rfl
  obtain ⟨w, hp, hd, _⟩ := pack_layout z fs none file_list level hne (by rw [hvl]; exact h17) rfl
  refine ⟨w, ?_, ?_⟩
  · rw [hp]
    unfold v0_entries
    rw [hl]
    rfl
  · rw [hd, hvl, hv, hl]
    simp [bodies]

/-- C3, the code at a list of 2^32 files on an unlimited medium: pack returns true, records
no entry and writes no body; the archive is the signature, the zero byte, the count 2^32 and
73014444032 zero bytes, where the claim has 2^32 table rows followed by 2^32 bodies. -/
theorem v0_archive_at_4294967296_files :
    ∃ w, pack stored id none (many_paths 4294967296) 9
        = { ret := true, write_stream := some w, entry_list := [] }
      ∧ w.data = cs_signature ++ [0] ++ [0, 0, 0, 1, 0, 0, 0, 0]
          ++ List.replicate 73014444032 0 := by
  have hlen : (many_paths 4294967296).length % 2 ^ 32 = 0 := by
    rw [length_many_paths]
    decide
  have hcalc : calc_uncompressed_header_size (many_paths 4294967296) cs_signature
      = 73014444049 := by
    rw [calc_of_wrap _ _ hlen, length_many_paths]
    rfl
  obtain ⟨w, hp, hd⟩ := pack_of_wrap stored id (many_paths 4294967296) 9
    (many_paths_ne_nil _ (by decide)) hlen (by rw [hcalc]; decide)
  refine ⟨w, hp, ?_⟩
  rw [hd, hcalc, length_many_paths]
  rfl

/-! ## The v1 catalog size field -/

/-- The positive part of C6: for a list of fewer than 2^32 paths whose header size is below
2^64, the value pack_v1 writes as uncompressed_catalog_size is the byte length of the blob
hdr_data that it then builds from the entry list of the body loop, namely 8 plus, for each
entry, 17 plus the length of its path; signature and size field are not counted. -/
theorem catalog_size_matches_blob {σ : Type} (z : zlib σ) (fs : List Nat → List Nat)
    (level : Int) (file_list : List (List Nat)) (w0 : file_stream_if)
    (hn : file_list.length < 2 ^ 32)
    (h64 : header_size_formula file_list cs_signature_v1 < 2 ^ 64) :
    uncomp_hdr_sz file_list
      = (hdr_data file_list (write_bodies z fs level (loop_range file_list) w0 []).2).length
    ∧ uncomp_hdr_sz file_list
      = 8 + ((file_list.map (fun path => 17 + path.length)).sum) := by
  have hc := calc_eq_formula file_list cs_signature_v1 hn h64
  have hl : (write_bodies z fs level (loop_range file_list) w0 []).2.length
      = (loop_range file_list).length := by
    rw [length_write_bodies]; simp
  have hsum : (file_list.map (fun path => 17 + path.length)).sum
      = 17 * file_list.length + (file_list.map List.length).sum := by
    induction file_list with
    | nil => rfl
    | cons a l ih =>
      simp only [List.map_cons, List.sum_cons, List.length_cons]
      have hl2 : l.length < 2 ^ 32 := by
        simp only [List.length_cons] at hn; omega
      have h642 : header_size_formula l cs_signature_v1 < 2 ^ 64 := by
        unfold header_size_formula at h64 ⊢
        simp only [List.length_cons, List.map_cons, List.sum_cons] at h64
        omega
      rw [ih hl2 h642 (calc_eq_formula l cs_signature_v1 hl2 h642)
        (by rw [length_write_bodies]; simp)]
      omega
  have hu : uncomp_hdr_sz file_list = 8 + 17 * file_list.length
      + (file_list.map List.length).sum := by
    unfold uncomp_hdr_sz
    rw [hc]
    unfold header_size_formula at h64 ⊢
    simp only [cs_signature_v1, List.length_cons, List.length_nil] at h64 ⊢
    omega
  refine ⟨?_, by rw [hu, hsum]; omega⟩
  rw [hu, hdr_data_eq, length_catalog_bytes file_list _ hl, loop_range_of_lt file_list hn]

theorem catalog_size_matches_blob_witness :
    uncomp_hdr_sz [[97], [98, 99]] = 45
    ∧ (hdr_data [[97], [98, 99]]
        (write_bodies stored id 9 (loop_range [[97], [98, 99]]) file_mem_writer_c []).2).length
      = 45 := by
  have h := (catalog_size_matches_blob stored id 9 [[97], [98, 99]] file_mem_writer_c
    (by decide) (by decide)).1
  exact ⟨by decide, h.symm.trans (by decide)⟩

theorem pack_v1_entry_list_of_wrap {σ : Type} (z : zlib σ) (fs : List Nat → List Nat)
    (cap : Option Nat) (file_list : List (List Nat)) (level : Int)
    (h : file_list.length % 2 ^ 32 = 0) :
    (pack_v1 z fs cap file_list level).entry_list = [] := by
  unfold pack_v1
  rw [loop_range_of_wrap file_list h]
  split <;> rfl

theorem uncomp_hdr_sz_of_wrap (file_list : List (List Nat))
    (h : file_list.length = 4294967296) : uncomp_hdr_sz file_list = 73014444040 := by
  have hlen : file_list.length % 2 ^ 32 = 0 := by rw [h]; decide
  unfold uncomp_hdr_sz
  rw [calc_of_wrap _ _ hlen, h]
  rfl

theorem hdr_data_of_wrap (file_list : List (List Nat))
    (h : file_list.length = 4294967296) :
    hdr_data file_list [] = [0, 0, 0, 1, 0, 0, 0, 0] := by
  rw [hdr_data_eq, h]
  rfl

/-- C6, the code at a list of 2^32 paths: pack_v1 records no entry, the catalog blob it builds
is the 8 bytes of the count, and the value it writes as uncompressed_catalog_size is
17 * 2^32 + 8 = 73014444040. -/
theorem catalog_size_at_4294967296_paths :
    uncomp_hdr_sz (many_paths 4294967296) = 73014444040
    ∧ (pack_v1 stored id none (many_paths 4294967296) 9).entry_list = []
    ∧ hdr_data (many_paths 4294967296) [] = [0, 0, 0, 1, 0, 0, 0, 0] :=
  ⟨uncomp_hdr_sz_of_wrap _ (length_many_paths _),
   pack_v1_entry_list_of_wrap stored id none _ 9
     ((congrArg (fun n => n % 2 ^ 32) (length_many_paths 4294967296)).trans (by decide)),
   hdr_data_of_wrap _ (length_many_paths _)⟩

/-! ## The v1 header offset and catalog -/

theorem region_of_eq (data pre mid post : List Nat) (lo hi : Nat)
    (h : data = pre ++ mid ++ post) (hlo : lo = pre.length) (hhi : hi = lo + mid.length) :
    region data lo hi = mid := by
  rw [h, hhi, hlo]
  exact region_append pre mid post

/-- C4: for every non-empty scanned file list, on a medium that accepts every write and on
which the bodies end below offset 2^64, the archive of pack_v1 starts with "JVFS0101" and one
zero byte; the 8 bytes at offsets [9, 17) decode, big-endian, to 17 plus the total length of
the bodies, which is the position of the stream right after the last body (the bodies fill
[17, that offset)) and the offset of the first byte of the uncompressed_catalog_size field;
and the patch of that field leaves the length of the archive, its first 9 bytes, its bytes
from 17 on and the cursor as they were. -/
theorem v1_header_offset_field {σ : Type} (z : zlib σ) (fs : List Nat → List Nat)
    (cap : Option Nat) (file_list : List (List Nat)) (level : Int) (hne : file_list ≠ [])
    (hroom : holds cap (v1_size z fs level file_list) = true)
    (h64 : 17 + (bodies z fs level (loop_range file_list)).length < 2 ^ 64) :
    (∃ w, (pack_v1 z fs cap file_list level).write_stream = some w
      ∧ (∀ q ∈ w.log, q.2 = q.1)
      ∧ region w.data 0 9 = cs_signature_v1 ++ [0]
      ∧ be_value (region w.data 9 17) = 17 + (bodies z fs level (loop_range file_list)).length
      ∧ region w.data 17 (17 + (bodies z fs level (loop_range file_list)).length)
          = bodies z fs level (loop_range file_list)
      ∧ region w.data (17 + (bodies z fs level (loop_range file_list)).length)
          (17 + (bodies z fs level (loop_range file_list)).length + 8)
          = encode_tmp (uncomp_hdr_sz file_list))
    ∧ ((write_bodies z fs level (loop_range file_list)
          (encode 0 (encode_string cs_signature_v1 ((file_stream_writer_c cap).seek 0)))
          []).1.tell = 17 + (bodies z fs level (loop_range file_list)).length
      ∧ (patch_header_offset 9 (write_bodies z fs level (loop_range file_list)
          (encode 0 (encode_string cs_signature_v1 ((file_stream_writer_c cap).seek 0)))
          []).1).data.length
        = (write_bodies z fs level (loop_range file_list)
          (encode 0 (encode_string cs_signature_v1 ((file_stream_writer_c cap).seek 0)))
          []).1.data.length
      ∧ (patch_header_offset 9 (write_bodies z fs level (loop_range file_list)
          (encode 0 (encode_string cs_signature_v1 ((file_stream_writer_c cap).seek 0)))
          []).1).data.take 9
        = (write_bodies z fs level (loop_range file_list)
          (encode 0 (encode_string cs_signature_v1 ((file_stream_writer_c cap).seek 0)))
          []).1.data.take 9
      ∧ (patch_header_offset 9 (write_bodies z fs level (loop_range file_list)
          (encode 0 (encode_string cs_signature_v1 ((file_stream_writer_c cap).seek 0)))
          []).1).data.drop 17
        = (write_bodies z fs level (loop_range file_list)
          (encode 0 (encode_string cs_signature_v1 ((file_stream_writer_c cap).seek 0)))
          []).1.data.drop 17
      ∧ (patch_header_offset 9 (write_bodies z fs level (loop_range file_list)
          (encode 0 (encode_string cs_signature_v1 ((file_stream_writer_c cap).seek 0)))
          []).1).tell
        = (write_bodies z fs level (loop_range file_list)
          (encode 0 (encode_string cs_signature_v1 ((file_stream_writer_c cap).seek 0)))
          []).1.tell) := by
  have hB : v1_body_end z fs level file_list
      = 17 + (bodies z fs level (loop_range file_list)).length := rfl
  constructor
  · obtain ⟨w, hp, hd, hl⟩ := pack_v1_layout z fs cap file_list level hne hroom
    rw [hB] at hd
    refine ⟨w, by rw [hp], hl, ?_, ?_, ?_, ?_⟩
    · exact region_of_eq w.data [] (cs_signature_v1 ++ [0])
        (encode_tmp (17 + (bodies z fs level (loop_range file_list)).length)
          ++ (bodies z fs level (loop_range file_list)
          ++ (encode_tmp (uncomp_hdr_sz file_list)
          ++ compressed z level (v1_catalog z fs level file_list)))) 0 9
        (by rw [hd]; simp only [List.append_assoc, List.nil_append]) rfl rfl
    · rw [region_of_eq w.data (cs_signature_v1 ++ [0])
        (encode_tmp (17 + (bodies z fs level (loop_range file_list)).length))
        (bodies z fs level (loop_range file_list)
          ++ (encode_tmp (uncomp_hdr_sz file_list)
          ++ compressed z level (v1_catalog z fs level file_list))) 9 17
        (by rw [hd]; simp only [List.append_assoc]) (by decide)
        (by rw [length_encode_tmp])]
      exact be_value_encode_tmp _ h64
    · exact region_of_eq w.data (cs_signature_v1 ++ [0]
          ++ encode_tmp (17 + (bodies z fs level (loop_range file_list)).length))
        (bodies z fs level (loop_range file_list))
        (encode_tmp (uncomp_hdr_sz file_list)
          ++ compressed z level (v1_catalog z fs level file_list)) _ _
        (by rw [hd]; simp only [List.append_assoc])
        (by simp [length_encode_tmp, cs_signature_v1]) rfl
    · exact region_of_eq w.data (cs_signature_v1 ++ [0]
          ++ encode_tmp (17 + (bodies z fs level (loop_range file_list)).length)
          ++ bodies z fs level (loop_range file_list))
        (encode_tmp (uncomp_hdr_sz file_list))
        (compressed z level (v1_catalog z fs level file_list)) _ _
        (by rw [hd])
        (by
          simp only [length_encode_tmp, cs_signature_v1, List.length_append, List.length_cons,
            List.length_nil]) (by rw [length_encode_tmp])
  · obtain ⟨_, _, hdata3, hpos3, hcap3, _⟩ :=
      v1_bodies_stage z fs cap file_list level (holds_mono hroom (by
        unfold v1_size; omega))
    obtain ⟨hdata5, hpos5, _, _⟩ := patch_header_offset_spec _
      (cs_signature_v1 ++ [0]) (encode_tmp 0) (bodies z fs level (loop_range file_list))
      hdata3 rfl rfl (by
        rw [hcap3]; exact holds_mono hroom (by unfold v1_size v1_body_end; omega))
    refine ⟨hpos3, ?_, ?_, ?_, hpos5⟩
    · rw [hdata5, hdata3]
      simp only [List.length_append, length_encode_tmp]
    · rw [hdata5, hdata3]
      rw [List.append_assoc (cs_signature_v1 ++ [0]), List.append_assoc (cs_signature_v1 ++ [0]),
        List.take_left' (by decide), List.take_left' (by decide)]
    · rw [hdata5, hdata3]
      rw [List.drop_left' (by simp [length_encode_tmp, cs_signature_v1]),
        List.drop_left' (by simp [length_encode_tmp, cs_signature_v1])]

/-- Witness of C4: two files "a" and "bc", the toy deflater, an unlimited medium: the bodies
take 5 bytes and the header-offset field decodes to 22. -/
theorem v1_header_offset_field_witness :
    ∃ w, (pack_v1 stored id none [[97], [98, 99]] 9).write_stream = some w
      ∧ region w.data 0 9 = [74, 86, 70, 83, 48, 49, 48, 49, 0]
      ∧ be_value (region w.data 9 17) = 22 := by
  obtain ⟨⟨w, hw, _, hsig, hoff, _, _⟩, _⟩ := v1_header_offset_field stored id none
    [[97], [98, 99]] 9 (by decide) (by decide) (by decide)
  exact ⟨w, hw, hsig, hoff.trans (by decide)⟩

/-- The positive part of C5: for every non-empty scanned file list, on a medium that accepts
every write, in the
archive of pack_v1 the bytes after the 8-byte size field at header_offset (the offset
v1_body_end, 17 plus the length of the bodies, whose encoding is stored in the header-offset
field) are the compressor output for the blob hdr_data that pack_v1 built in
memory; that blob is the u64 count followed, for each recorded entry in scan order, by u64
addr, u64 uncompressed_size, the path and one zero byte, with no signature in front, the
entries being the ones recorded in the body loop (one per visited file); so a left inverse of
the compressor gives the blob back. -/
theorem v1_catalog_blob {σ : Type} (z : zlib σ) (fs : List Nat → List Nat)
    (cap : Option Nat) (file_list : List (List Nat)) (level : Int)
    (inflate : List Nat → List Nat) (hne : file_list ≠ [])
    (hroom : holds cap (v1_size z fs level file_list) = true)
    (hinv : ∀ content, inflate (compressed z level content) = content) :
    ∃ w, (pack_v1 z fs cap file_list level).write_stream = some w
      ∧ (∀ q ∈ w.log, q.2 = q.1)
      ∧ region w.data 9 17 = encode_tmp (v1_body_end z fs level file_list)
      ∧ region w.data (v1_body_end z fs level file_list)
          (v1_body_end z fs level file_list + 8) = encode_tmp (uncomp_hdr_sz file_list)
      ∧ w.data.drop (v1_body_end z fs level file_list + 8)
          = compressed z level (hdr_data file_list (pack_v1 z fs cap file_list level).entry_list)
      ∧ hdr_data file_list (pack_v1 z fs cap file_list level).entry_list
          = encode_tmp file_list.length
            ++ (((pack_v1 z fs cap file_list level).entry_list.zip (loop_range file_list)).map
                (fun ep => encode_tmp ep.1.addr ++ encode_tmp ep.1.uncompressed_size
                  ++ ep.2 ++ [0])).flatten
      ∧ (pack_v1 z fs cap file_list level).entry_list
          = entries_at z fs level 17 (loop_range file_list)
      ∧ (pack_v1 z fs cap file_list level).entry_list.length = (loop_range file_list).length
      ∧ inflate (w.data.drop (v1_body_end z fs level file_list + 8))
          = hdr_data file_list (pack_v1 z fs cap file_list level).entry_list := by
  obtain ⟨w, hp, hd, hl⟩ := pack_v1_layout z fs cap file_list level hne hroom
  have hcat : hdr_data file_list (v1_entries z fs level file_list)
      = v1_catalog z fs level file_list := by
    rw [hdr_data_eq]; rfl
  have hdrop : w.data.drop (v1_body_end z fs level file_list + 8)
      = compressed z level (v1_catalog z fs level file_list) := by
    rw [hd]
    exact List.drop_left' (by
      simp only [v1_body_end, length_encode_tmp, cs_signature_v1, List.length_append,
        List.length_cons, List.length_nil])
  rw [hp]
  simp only
  rw [hcat]
  refine ⟨w, rfl, hl, ?_, ?_, hdrop, ?_, rfl,
    length_entries_at _ _ _ _ _, by rw [hdrop, hinv]⟩
  · exact region_of_eq w.data (cs_signature_v1 ++ [0])
      (encode_tmp (v1_body_end z fs level file_list))
      (bodies z fs level (loop_range file_list)
        ++ (encode_tmp (uncomp_hdr_sz file_list)
        ++ compressed z level (v1_catalog z fs level file_list))) 9 17
      (by rw [hd]; simp only [List.append_assoc]) (by decide) (by rw [length_encode_tmp])
  · exact region_of_eq w.data (cs_signature_v1 ++ [0]
        ++ encode_tmp (v1_body_end z fs level file_list)
        ++ bodies z fs level (loop_range file_list))
      (encode_tmp (uncomp_hdr_sz file_list))
      (compressed z level (v1_catalog z fs level file_list)) _ _
      (by rw [hd])
      (by
        simp only [v1_body_end, length_encode_tmp, cs_signature_v1, List.length_append,
          List.length_cons, List.length_nil]) (by rw [length_encode_tmp])
  · rfl

/-- Witness of the positive part of C5: two files "a" and "bc", the toy deflater (inverted by
dropping the end
marker), an unlimited medium: what follows the size field at offset 22 + 8 inflates to the
catalog blob of the two entries at 17 and 19. -/
theorem v1_catalog_blob_witness :
    ∃ w, (pack_v1 stored id none [[97], [98, 99]] 9).write_stream = some w
      ∧ region w.data 9 17 = [0, 0, 0, 0, 0, 0, 0, 22]
      ∧ List.dropLast (w.data.drop 30)
          = [0, 0, 0, 0, 0, 0, 0, 2,
             0, 0, 0, 0, 0, 0, 0, 17, 0, 0, 0, 0, 0, 0, 0, 1, 97, 0,
             0, 0, 0, 0, 0, 0, 0, 19, 0, 0, 0, 0, 0, 0, 0, 2, 98, 99, 0] := by
  obtain ⟨w, hw, _, hoff, _, _, _, _, _, hinf⟩ := v1_catalog_blob stored id none
    [[97], [98, 99]] 9 List.dropLast (by decide) (by decide)
    (fun c => by rw [compressed_stored]; exact List.dropLast_concat)
  exact ⟨w, hw, hoff.trans (by decide), hinf.trans (by decide)⟩

/-! ## Monotone offsets -/

theorem entries_at_increasing {σ : Type} (z : zlib σ) (fs : List Nat → List Nat) (level : Int)
    (hz : ∀ content, compressed z level content ≠ []) (files : List (List Nat)) (base : Nat)
    (i : Nat) (e e2 : pack_entry_t) (h1 : (entries_at z fs level base files)[i]? = some e)
    (h2 : (entries_at z fs level base files)[i + 1]? = some e2) : e.addr < e2.addr := by
  induction files generalizing base i with
  | nil => simp [entries_at] at h1
  | cons path rest ih =>
    simp only [entries_at, List.getElem?_cons_succ] at h2
    cases i with
    | zero =>
      simp only [entries_at, List.getElem?_cons_zero, Option.some.injEq] at h1
      have ha := entries_at_head z fs level _ rest e2 h2
      have hpos : 0 < (compressed z level (fs path)).length :=
        List.length_pos.2 (hz (fs path))
      rw [ha, ← h1]
      simp only
      omega
    | succ k =>
      simp only [entries_at, List.getElem?_cons_succ] at h1
      exact ih _ k h1 h2

theorem entries_at_last_lt {σ : Type} (z : zlib σ) (fs : List Nat → List Nat) (level : Int)
    (hz : ∀ content, compressed z level content ≠ []) (files : List (List Nat)) (base : Nat)
    (e : pack_entry_t) (h : (entries_at z fs level base files).getLast? = some e) :
    e.addr < base + (bodies z fs level files).length := by
  induction files generalizing base with
  | nil => simp [entries_at] at h
  | cons path rest ih =>
    have hpos : 0 < (compressed z level (fs path)).length :=
      List.length_pos.2 (hz (fs path))
    rw [bodies_cons, List.length_append]
    cases rest with
    | nil =>
      simp only [entries_at, List.getLast?_singleton, Option.some.injEq] at h
      rw [← h]
      simp only
      omega
    | cons p2 r2 =>
      have hl : (entries_at z fs level base (path :: p2 :: r2)).getLast?
          = (entries_at z fs level (base + (compressed z level (fs path)).length)
              (p2 :: r2)).getLast? := by
        simp only [entries_at, List.getLast?_cons_cons]
      rw [hl] at h
      have := ih _ h
      omega

/-- The entry list of pack on a medium that accepts the reserved header and the bodies. -/
theorem pack_entry_list {σ : Type} (z : zlib σ) (fs : List Nat → List Nat) (cap : Option Nat)
    (file_list : List (List Nat)) (level : Int) (hne : file_list ≠ [])
    (hroom : holds cap (v0_size z fs level file_list) = true) :
    (pack z fs cap file_list level).entry_list = v0_entries z fs level file_list := by
  have hemp : file_list.isEmpty = false := by
    cases file_list with
    | nil => exact absurd rfl hne
    | cons a l => rfl
  have h1 := (write_wrote ((file_stream_writer_c cap).seek 0)
    (List.replicate (calc_uncompressed_header_size file_list cs_signature) 0)
    (holds_mono hroom (by
      simp [file_stream_if.seek, file_stream_writer_c, v0_size]))).1
  have h2 := (write_bodies_spec z fs level (loop_range file_list) _ [] h1.pos_le (h1.holds (by
    simpa [file_stream_if.seek, file_stream_writer_c, v0_size] using hroom))).2
  unfold pack
  rw [hemp]
  simp only [Bool.false_eq_true, if_false]
  rw [h2, h1.2.1]
  simp [v0_entries, file_stream_if.seek, file_stream_writer_c]

/-- The positive part of C7: for every non-empty file list, on a medium that accepts every
write and with a
compressor whose output is never empty (a finished zlib stream carries its header and end
marker), the entry offsets recorded by pack and by pack_v1 are strictly increasing in catalog
order; in v0 the reserved header size is at most the offset of entry 0, and in v1 the offset
of the last entry is below header_offset (the offset v1_body_end whose encoding is stored in
the header-offset field). -/
theorem entry_offsets_increasing {σ : Type} (z : zlib σ) (fs : List Nat → List Nat)
    (cap : Option Nat) (file_list : List (List Nat)) (level : Int) (hne : file_list ≠ [])
    (hroom0 : holds cap (v0_size z fs level file_list) = true)
    (hroom1 : holds cap (v1_size z fs level file_list) = true)
    (hz : ∀ content, compressed z level content ≠ []) :
    ((∀ i e e2, (pack z fs cap file_list level).entry_list[i]? = some e →
        (pack z fs cap file_list level).entry_list[i + 1]? = some e2 → e.addr < e2.addr)
      ∧ (∀ e, (pack z fs cap file_list level).entry_list[0]? = some e →
          calc_uncompressed_header_size file_list cs_signature ≤ e.addr))
    ∧ ((∀ i e e2, (pack_v1 z fs cap file_list level).entry_list[i]? = some e →
        (pack_v1 z fs cap file_list level).entry_list[i + 1]? = some e2 → e.addr < e2.addr)
      ∧ ∃ w, (pack_v1 z fs cap file_list level).write_stream = some w
        ∧ region w.data 9 17 = encode_tmp (v1_body_end z fs level file_list)
        ∧ ∀ e, (pack_v1 z fs cap file_list level).entry_list.getLast? = some e →
            e.addr < v1_body_end z fs level file_list) := by
  constructor
  · rw [pack_entry_list z fs cap file_list level hne hroom0]
    refine ⟨fun i e e2 h1 h2 => entries_at_increasing z fs level hz _ _ i e e2 h1 h2, ?_⟩
    intro e he
    exact Nat.le_of_eq (entries_at_head z fs level _ _ e he).symm
  · obtain ⟨w, hp, hd, _⟩ := pack_v1_layout z fs cap file_list level hne hroom1
    rw [hp]
    simp only
    refine ⟨fun i e e2 h1 h2 => entries_at_increasing z fs level hz _ _ i e e2 h1 h2,
      w, rfl, ?_, ?_⟩
    · exact region_of_eq w.data (cs_signature_v1 ++ [0])
        (encode_tmp (v1_body_end z fs level file_list))
        (bodies z fs level (loop_range file_list)
          ++ (encode_tmp (uncomp_hdr_sz file_list)
          ++ compressed z level (v1_catalog z fs level file_list))) 9 17
        (by rw [hd]; simp only [List.append_assoc]) (by decide) (by rw [length_encode_tmp])
    · intro e he
      exact entries_at_last_lt z fs level hz _ 17 e he

/-- Witness of the positive part of C7: two files "a" and "bc", the toy deflater, whose output
always ends in its
marker byte, an unlimited medium: the v0 offsets are 54 < 56 and the v1 offsets 17 < 19. -/
theorem entry_offsets_increasing_witness :
    ((pack stored id none [[97], [98, 99]] 9).entry_list.map (fun e => e.addr) = [54, 56]
      ∧ (54 : Nat) < 56)
    ∧ ((pack_v1 stored id none [[97], [98, 99]] 9).entry_list.map (fun e => e.addr) = [17, 19]
      ∧ (17 : Nat) < 19) :=
  have h := entry_offsets_increasing stored id none [[97], [98, 99]] 9 (by decide) (by decide)
    (by decide) (fun c => by rw [compressed_stored]; simp)
  ⟨⟨by decide, h.1.1 0 ⟨54, 1⟩ ⟨56, 2⟩ (by decide) (by decide)⟩,
   ⟨by decide, h.2.1 0 ⟨17, 1⟩ ⟨19, 2⟩ (by decide) (by decide)⟩⟩

/-! ## Short writes -/

/-- Whatever the medium accepts, pack and pack_v1 return true for a non-empty file list:
neither looks at the result of compress or of a write. -/
theorem pack_ret_true {σ : Type} (z : zlib σ) (fs : List Nat → List Nat) (cap : Option Nat)
    (file_list : List (List Nat)) (level : Int) (hne : file_list ≠ []) :
    (pack z fs cap file_list level).ret = true
      ∧ (pack_v1 z fs cap file_list level).ret = true := by
  have hemp : file_list.isEmpty = false := by
    cases file_list with
    | nil => exact absurd rfl hne
    | cons a l => rfl
  unfold pack pack_v1
  rw [hemp]
  exact ⟨rfl, rfl⟩

set_option maxRecDepth 8192 in
/-- C10, the code at a short write: one file "a" whose body takes 2 bytes. On a medium of 36
bytes pack reserves 35 bytes, the write of the body is cut to 1 byte and compress returns
Z_ERRNO; pack goes on to issue the 7 writes of the header patch and returns true. On a medium
of 18 bytes pack_v1 has the write of the body cut to 1 byte, goes on to patch the offset field
and to request the size field and the catalog (both refused), and returns true. -/
theorem pack_goes_on_after_short_write :
    pack stored id (some 36) [[97]] 9
      = { ret := true,
          write_stream := some
            { data := [74, 86, 70, 83, 48, 49, 48, 48, 0, 0, 0, 0, 0, 0, 0, 0, 1,
                0, 0, 0, 0, 0, 0, 0, 35, 0, 0, 0, 0, 0, 0, 0, 1, 97, 0, 97],
              pos := 35, cap := some 36,
              log := [(35, 35), (2, 1), (8, 8), (1, 1), (8, 8), (8, 8), (8, 8), (1, 1),
                (1, 1)] },
          entry_list := [⟨35, 1⟩] }
    ∧ (compress stored (file_stream_reader_c [97])
        (((file_stream_writer_c (some 36)).seek 0).write (List.replicate 35 0)).1 9).1
        = Z_ERRNO
    ∧ pack_v1 stored id (some 18) [[97]] 9
      = { ret := true,
          write_stream := some
            { data := [74, 86, 70, 83, 48, 49, 48, 49, 0, 0, 0, 0, 0, 0, 0, 0, 18, 97],
              pos := 18, cap := some 18,
              log := [(8, 8), (1, 1), (8, 8), (2, 1), (8, 8), (8, 0), (27, 0)] },
          entry_list := [⟨17, 1⟩] } := by
  refine ⟨by decide, by decide, by decide⟩

set_option maxRecDepth 8192 in
/-- C5, the code at a medium that holds 17 bytes: for the files "a" and "b", pack_v1 has both
body writes, the write of the size field and the write of the compressed catalog refused in
full, and returns true. The archive it leaves is the 17 bytes of signature, zero byte and
header-offset field, which holds 17: no byte follows the place of the size field, where the
claim has the 45 bytes of the compressed catalog. -/
theorem v1_catalog_missing_after_short_write :
    pack_v1 stored id (some 17) [[97], [98]] 9
      = { ret := true,
          write_stream := some
            { data := [74, 86, 70, 83, 48, 49, 48, 49, 0, 0, 0, 0, 0, 0, 0, 0, 17],
              pos := 17, cap := some 17,
              log := [(8, 8), (1, 1), (8, 8), (2, 0), (2, 0), (8, 8), (8, 0), (45, 0)] },
          entry_list := [⟨17, 1⟩, ⟨17, 1⟩] }
    ∧ compressed stored 9 (hdr_data [[97], [98]] [⟨17, 1⟩, ⟨17, 1⟩])
      = [0, 0, 0, 0, 0, 0, 0, 2, 0, 0, 0, 0, 0, 0, 0, 17, 0, 0, 0, 0, 0, 0, 0, 1, 97, 0,
          0, 0, 0, 0, 0, 0, 0, 17, 0, 0, 0, 0, 0, 0, 0, 1, 98, 0, 255]
    ∧ List.drop (17 + 8) [74, 86, 70, 83, 48, 49, 48, 49, 0, 0, 0, 0, 0, 0, 0, 0, 17]
      = ([] : List Nat) := by
  refine ⟨by decide, by decide, by decide⟩

set_option maxRecDepth 8192 in
/-- C7, the code at a medium on which the bodies do not fit: for the files "a" and "b", on a
medium of 53 bytes pack reserves the 53 bytes of the header, has both body writes refused and
returns true with the two entries at the same offset 53; on a medium of 17 bytes pack_v1
returns true with both entries at offset 17, which is also the value of the header-offset
field. -/
theorem entry_offsets_equal_after_short_write :
    calc_uncompressed_header_size [[97], [98]] cs_signature = 53
    ∧ (pack stored id (some 53) [[97], [98]] 9).ret = true
    ∧ (pack stored id (some 53) [[97], [98]] 9).entry_list = [⟨53, 1⟩, ⟨53, 1⟩]
    ∧ (pack stored id (some 53) [[97], [98]] 9).write_stream.map (fun w => w.log)
      = some [(53, 53), (2, 0), (2, 0), (8, 8), (1, 1), (8, 8), (8, 8), (8, 8), (1, 1),
          (1, 1), (8, 8), (8, 8), (1, 1), (1, 1)]
    ∧ (pack_v1 stored id (some 17) [[97], [98]] 9).ret = true
    ∧ (pack_v1 stored id (some 17) [[97], [98]] 9).entry_list = [⟨17, 1⟩, ⟨17, 1⟩]
    ∧ (pack_v1 stored id (some 17) [[97], [98]] 9).write_stream.map
        (fun w => be_value (region w.data 9 17)) = some 17 := by
  refine ⟨by decide, by decide, by decide, by decide, by decide, by decide, by decide⟩

/-! ## The directory scan on a tree -/

theorem with_slash_ne_nil (path : List Nat) : with_slash path ≠ [] := by
  unfold with_slash
  split
  · simp
  · rename_i h
    intro h0
    rw [h0] at h
    simp at h

theorem scan_entries_tree (f : List Nat → Option (List (List Nat))) (pre : List Nat)
    (es : List Entry) (k : Nat) (dirs flist : List (List Nat))
    (h : represents_all f pre es = true) :
    ∃ k2, scan_entries (static_fs f) pre (es.map Entry.name) k dirs flist
      = (k2, ((subdirs pre es).map Prod.fst).reverse ++ dirs, flist ++ direct_files pre es) := by
  induction es generalizing k dirs flist with
  | nil => exact ⟨k, by simp [scan_entries, subdirs, direct_files]⟩
  | cons e es ih =>
    rw [represents_all, Bool.and_eq_true] at h
    obtain ⟨he, hes⟩ := h
    cases e with
    | file n =>
      by_cases hd : starts_with_dot n = true
      · obtain ⟨k2, hk⟩ := ih k dirs flist hes
        refine ⟨k2, ?_⟩
        simp only [List.map_cons, Entry.name, scan_entries, hd, if_true]
        rw [hk]
        simp [subdirs, direct_files, hd]
      · simp only [represents_one, hd, Bool.false_or, decide_eq_true_eq] at he
        obtain ⟨k2, hk⟩ := ih (k + 1) dirs (flist ++ [pre ++ n]) hes
        refine ⟨k2, ?_⟩
        simp only [List.map_cons, Entry.name, scan_entries, hd, is_dir, static_fs, he,
          Option.isSome_none, Bool.false_eq_true, if_false]
        rw [hk]
        simp [subdirs, direct_files, hd]
    | closed n =>
      by_cases hd : starts_with_dot n = true
      · obtain ⟨k2, hk⟩ := ih k dirs flist hes
        refine ⟨k2, ?_⟩
        simp only [List.map_cons, Entry.name, scan_entries, hd, if_true]
        rw [hk]
        simp [subdirs, direct_files, hd]
      · simp only [represents_one, hd, Bool.false_or, decide_eq_true_eq] at he
        obtain ⟨k2, hk⟩ := ih (k + 1) dirs (flist ++ [pre ++ n]) hes
        refine ⟨k2, ?_⟩
        simp only [List.map_cons, Entry.name, scan_entries, hd, is_dir, static_fs, he,
          Option.isSome_none, Bool.false_eq_true, if_false]
        rw [hk]
        simp [subdirs, direct_files, hd]
    | dir n sub =>
      by_cases hd : starts_with_dot n = true
      · obtain ⟨k2, hk⟩ := ih k dirs flist hes
        refine ⟨k2, ?_⟩
        simp only [List.map_cons, Entry.name, scan_entries, hd, if_true]
        rw [hk]
        simp [subdirs, direct_files, hd]
      · simp only [represents_one, hd, Bool.false_or, Bool.and_eq_true,
          decide_eq_true_eq] at he
        obtain ⟨k2, hk⟩ := ih (k + 1) ((pre ++ n) :: dirs) flist hes
        refine ⟨k2, ?_⟩
        simp only [List.map_cons, Entry.name, scan_entries, hd, is_dir, static_fs, he.1,
          Option.isSome_some, if_true, Bool.false_eq_true, if_false]
        rw [hk]
        simp [subdirs, direct_files, hd]

theorem subdirs_represented (f : List Nat → Option (List (List Nat))) (pre : List Nat)
    (es : List Entry) (hpre : pre ≠ []) (h : represents_all f pre es = true) :
    ∀ x ∈ subdirs pre es, x.1 ≠ [] ∧ represents f x.1 x.2 = true := by
  induction es with
  | nil => simp [subdirs]
  | cons e es ih =>
    rw [represents_all, Bool.and_eq_true] at h
    obtain ⟨he, hes⟩ := h
    intro x hx
    cases e with
    | file n =>
      exact ih hes x (by simpa [subdirs] using hx)
    | closed n =>
      exact ih hes x (by simpa [subdirs] using hx)
    | dir n sub =>
      by_cases hd : starts_with_dot n = true
      · exact ih hes x (by simpa [subdirs, hd] using hx)
      · simp only [represents_one, hd, Bool.false_or] at he
        have hx2 : x = (pre ++ n, sub) ∨ x ∈ subdirs pre es := by
          simpa [subdirs, hd] using hx
        rcases hx2 with hx2 | hx2
        · rw [hx2]
          exact ⟨by simp [hpre], he⟩
        · exact ih hes x hx2

theorem weight_eq_sum (pre : List Nat) (es : List Entry) :
    weight es = ((subdirs pre es).map (fun x => 1 + weight x.2)).sum := by
  induction es with
  | nil => rfl
  | cons e es ih =>
    cases e with
    | file n => simpa [weight, weight_one, subdirs] using ih
    | closed n => simpa [weight, weight_one, subdirs] using ih
    | dir n sub =>
      by_cases hd : starts_with_dot n = true
      · simpa [weight, weight_one, subdirs, hd] using ih
      · have hs : subdirs pre (Entry.dir n sub :: es) = (pre ++ n, sub) :: subdirs pre es := by
          simp [subdirs, hd]
        rw [hs, weight, weight_one, ih]
        simp [hd]

theorem walk_rev_eq (pre : List Nat) (es : List Entry) :
    walk_rev pre es = ((subdirs pre es).reverse.map (fun x => walk x.1 x.2)).flatten := by
  induction es with
  | nil => rfl
  | cons e es ih =>
    cases e with
    | file n =>
      have hs : subdirs pre (Entry.file n :: es) = subdirs pre es := by simp [subdirs]
      rw [hs, walk_rev, ih, walk_one, List.append_nil]
    | closed n =>
      have hs : subdirs pre (Entry.closed n :: es) = subdirs pre es := by simp [subdirs]
      rw [hs, walk_rev, ih, walk_one, List.append_nil]
    | dir n sub =>
      by_cases hd : starts_with_dot n = true
      · have hs : subdirs pre (Entry.dir n sub :: es) = subdirs pre es := by
          simp [subdirs, hd]
        rw [hs, walk_rev, ih, walk_one, if_pos hd, List.append_nil]
      · have hs : subdirs pre (Entry.dir n sub :: es) = (pre ++ n, sub) :: subdirs pre es := by
          simp [subdirs, hd]
        rw [hs, walk_rev, ih, walk_one, if_neg hd]
        simp [walk]

/-- The outer loop of get_files on a stack of directories of a tree, in a file system whose
answers are those of the tree: with more rounds than the stack holds directories to expand,
it returns true and appends the walks of the stacked directories, top first. -/
theorem get_files_loop_tree (f : List Nat → Option (List (List Nat))) (fuel : Nat)
    (stk : List (List Nat × List Entry)) (k : Nat) (flist : List (List Nat))
    (hgood : ∀ x ∈ stk, x.1 ≠ [] ∧ represents f x.1 x.2 = true)
    (hfuel : (stk.map (fun x => 1 + weight x.2)).sum < fuel) :
    get_files_loop (static_fs f) fuel k (stk.map Prod.fst) flist
      = some (true, flist ++ (stk.map (fun x => walk x.1 x.2)).flatten) := by
  induction fuel generalizing stk k flist with
  | zero => exact absurd hfuel (Nat.not_lt_zero _)
  | succ fuel ih =>
    cases stk with
    | nil => simp [get_files_loop]
    | cons x rest =>
      obtain ⟨path, es⟩ := x
      obtain ⟨hne, hrep⟩ := hgood (path, es) (by simp)
      simp only at hne hrep
      rw [represents, Bool.and_eq_true, decide_eq_true_eq] at hrep
      obtain ⟨hf, hall⟩ := hrep
      have hemp : path.isEmpty = false := by
        cases path with
        | nil => exact absurd rfl hne
        | cons a l => rfl
      obtain ⟨k2, hscan⟩ := scan_entries_tree f (with_slash path) es (k + 1)
        (rest.map Prod.fst) flist hall
      have hstep : get_files_loop (static_fs f) (fuel + 1) k
          (((path, es) :: rest).map Prod.fst) flist
          = get_files_loop (static_fs f) fuel k2
            (((subdirs (with_slash path) es).reverse ++ rest).map Prod.fst)
            (flist ++ direct_files (with_slash path) es) := by
        simp only [List.map_cons, get_files_loop, hemp, Bool.false_eq_true, if_false,
          static_fs, hf]
        have hscan2 := hscan
        simp only [static_fs] at hscan2
        rw [hscan2]
        simp [List.map_reverse]
      rw [hstep]
      have hgood2 : ∀ y ∈ (subdirs (with_slash path) es).reverse ++ rest,
          y.1 ≠ [] ∧ represents f y.1 y.2 = true := by
        intro y hy
        rcases List.mem_append.1 hy with hy | hy
        · exact subdirs_represented f _ es (with_slash_ne_nil path) hall y
            (List.mem_reverse.1 hy)
        · exact hgood y (List.mem_cons_of_mem _ hy)
      have hsum : (((subdirs (with_slash path) es).reverse ++ rest).map
          (fun x => 1 + weight x.2)).sum < fuel := by
        rw [List.map_append, List.sum_append, List.map_reverse, List.sum_reverse,
          ← weight_eq_sum]
        simp only [List.map_cons, List.sum_cons] at hfuel
        omega
      rw [ih _ k2 _ hgood2 hsum]
      have hw : walk path es = direct_files (with_slash path) es
          ++ ((subdirs (with_slash path) es).reverse.map (fun x => walk x.1 x.2)).flatten := by
        rw [walk, walk_rev_eq]
      rw [List.map_append, List.flatten_append, List.map_cons, List.flatten_cons]
      simp only [hw, List.append_assoc]

/-- The scan of a tree: in a file system whose answers do not change and are those of the
directory with entries `es` at the non-empty path `root`, get_files with more than
1 + weight es rounds returns true with the list `walk root es`. -/
theorem get_files_tree (f : List Nat → Option (List (List Nat))) (root : List Nat)
    (es : List Entry) (fuel : Nat) (hroot : root ≠ [])
    (hrep : represents f root es = true) (hfuel : 1 + weight es < fuel) :
    get_files (static_fs f) fuel root = some (true, walk root es) := by
  have h := get_files_loop_tree f fuel [(root, es)] 0 []
    (by
      intro x hx
      have hx2 : x = (root, es) := by simpa using hx
      rw [hx2]
      exact ⟨hroot, hrep⟩)
    (by simpa using hfuel)
  simpa [get_files] using h

theorem direct_files_of_open (pre : List Nat) (es : List Entry) (h : all_open es = true) :
    direct_files pre es = files_of pre es := by
  induction es with
  | nil => rfl
  | cons e es ih =>
    rw [all_open, Bool.and_eq_true] at h
    have ih2 := ih h.2
    cases e with
    | file n =>
      unfold direct_files files_of at ih2 ⊢
      rw [List.filterMap_cons, List.filterMap_cons, ih2]
    | closed n => simp [all_open_one] at h
    | dir n sub =>
      unfold direct_files files_of at ih2 ⊢
      rw [List.filterMap_cons, List.filterMap_cons, ih2]

mutual
theorem walk_rev_spec : ∀ (es : List Entry) (pre : List Nat), all_open es = true →
    walk_rev pre es = walk_spec_rev pre es
  | [], _, _ => rfl
  | e :: es, pre, h => by
    rw [all_open, Bool.and_eq_true] at h
    rw [walk_rev, walk_spec_rev, walk_rev_spec es pre h.2, walk_one_spec e pre h.1]
theorem walk_one_spec : ∀ (e : Entry) (pre : List Nat), all_open_one e = true →
    walk_one pre e = walk_spec_one pre e
  | .file _, _, _ => rfl
  | .closed _, _, _ => rfl
  | .dir n sub, pre, h => by
    rw [all_open_one] at h
    rw [walk_one, walk_spec_one, walk_rev_spec sub _ h, direct_files_of_open _ sub h]
end

theorem walk_eq_spec (path : List Nat) (es : List Entry) (h : all_open es = true) :
    walk path es = walk_spec path es := by
  rw [walk, walk_spec, walk_rev_spec es _ h, direct_files_of_open _ es h]

/-! ## The scan result as a set of name chains -/

theorem with_slash_of_ok (pre n : List Nat) (h : name_ok n = true) :
    with_slash (pre ++ n) = pre ++ n ++ [47] := by
  unfold name_ok at h
  rw [Bool.and_eq_true] at h
  obtain ⟨hne, h47⟩ := h
  have hn : n ≠ [] := by
    intro h0; rw [h0] at hne; simp at hne
  unfold with_slash
  rw [if_pos]
  rw [List.getLast?_append_of_ne_nil _ hn, List.getLast?_eq_getLast n hn]
  intro h0
  have hmem : n.getLast hn ∈ n := List.getLast_mem hn
  have h47b : n.getLast hn = 47 := by simpa using h0
  rw [h47b] at hmem
  simp [hmem] at h47

theorem join_path_cons (pre n : List Nat) (c : List (List Nat)) (hc : c ≠ []) :
    join_path pre (n :: c) = join_path (pre ++ n ++ [47]) c := by
  cases c with
  | nil => exact absurd rfl hc
  | cons a l =>
    simp [join_path, List.intercalate, List.intersperse, List.append_assoc]

theorem reachable_ne_nil (es : List Entry) : ∀ c ∈ reachable es, c ≠ [] := by
  induction es with
  | nil => simp [reachable]
  | cons e es ih =>
    intro c hc
    rw [reachable, List.mem_append] at hc
    rcases hc with hc | hc
    · cases e with
      | file n =>
        rw [reachable_one] at hc
        split at hc
        · simp at hc
        · simp at hc; rw [hc]; simp
      | closed n => simp [reachable_one] at hc
      | dir n sub =>
        rw [reachable_one] at hc
        split at hc
        · simp at hc
        · obtain ⟨c2, _, h2⟩ := List.mem_map.1 hc
          rw [← h2]; simp
    · exact ih c hc

mutual
theorem reachable_no_dot : ∀ (es : List Entry), ∀ c ∈ reachable es, ∀ n ∈ c,
    starts_with_dot n = false
  | [], c, hc, _, _ => by simp [reachable] at hc
  | e :: es, c, hc, n, hn => by
    rw [reachable, List.mem_append] at hc
    rcases hc with hc | hc
    · exact reachable_one_no_dot e c hc n hn
    · exact reachable_no_dot es c hc n hn
theorem reachable_one_no_dot : ∀ (e : Entry), ∀ c ∈ reachable_one e, ∀ n ∈ c,
    starts_with_dot n = false
  | .file m, c, hc, n, hn => by
    rw [reachable_one] at hc
    split at hc
    · simp at hc
    · rename_i hd
      simp at hc
      rw [hc] at hn
      simp at hn
      rw [hn]
      simpa using hd
  | .closed _, c, hc, _, _ => by simp [reachable_one] at hc
  | .dir m sub, c, hc, n, hn => by
    rw [reachable_one] at hc
    split at hc
    · simp at hc
    · rename_i hd
      obtain ⟨c2, hc2, h2⟩ := List.mem_map.1 hc
      rw [← h2] at hn
      rcases List.mem_cons.1 hn with hn | hn
      · rw [hn]; simpa using hd
      · exact reachable_no_dot sub c2 hc2 n hn
end

theorem perm_swap_inner (a b c d : List (List Nat)) :
    ((a ++ b) ++ (c ++ d)).Perm ((a ++ d) ++ (b ++ c)) := by
  rw [List.append_assoc, List.append_assoc]
  apply List.Perm.append_left
  rw [← List.append_assoc]
  exact List.perm_append_comm

mutual
theorem walk_perm_reachable : ∀ (es : List Entry) (pre : List Nat), all_open es = true →
    names_ok es = true →
    (direct_files pre es ++ walk_rev pre es).Perm ((reachable es).map (join_path pre))
  | [], _, _, _ => by simp [direct_files, walk_rev, reachable]
  | e :: es, pre, ho, hn => by
    rw [all_open, Bool.and_eq_true] at ho
    rw [names_ok, Bool.and_eq_true] at hn
    have h1 := walk_one_perm_reachable e pre ho.1 hn.1
    have h2 := walk_perm_reachable es pre ho.2 hn.2
    have hd : direct_files pre (e :: es) = direct_files pre [e] ++ direct_files pre es := by
      unfold direct_files
      rw [← List.filterMap_append]
      rfl
    rw [hd, walk_rev, reachable, List.map_append]
    exact (perm_swap_inner _ _ _ _).trans (h1.append h2)
theorem walk_one_perm_reachable : ∀ (e : Entry) (pre : List Nat), all_open_one e = true →
    names_ok_one e = true →
    (direct_files pre [e] ++ walk_one pre e).Perm ((reachable_one e).map (join_path pre))
  | .file n, pre, _, _ => by
    by_cases hd : starts_with_dot n = true
    · simp [direct_files, walk_one, reachable_one, hd]
    · simp [direct_files, walk_one, reachable_one, hd, join_path, List.intercalate,
        List.intersperse]
  | .closed _, _, ho, _ => by simp [all_open_one] at ho
  | .dir n sub, pre, ho, hn => by
    rw [all_open_one] at ho
    rw [names_ok_one, Bool.and_eq_true] at hn
    by_cases hd : starts_with_dot n = true
    · simp [direct_files, walk_one, reachable_one, hd]
    · have ih := walk_perm_reachable sub (pre ++ n ++ [47]) ho hn.2
      have hm : (reachable_one (Entry.dir n sub)).map (join_path pre)
          = (reachable sub).map (join_path (pre ++ n ++ [47])) := by
        rw [reachable_one, if_neg hd, List.map_map]
        apply List.map_congr_left
        intro c hc
        exact join_path_cons pre n c (reachable_ne_nil sub c hc)
      have hw : direct_files pre [Entry.dir n sub] ++ walk_one pre (Entry.dir n sub)
          = direct_files (pre ++ n ++ [47]) sub ++ walk_rev (pre ++ n ++ [47]) sub := by
        rw [walk_one, if_neg hd, with_slash_of_ok pre n hn.1]
        simp [direct_files]
      rw [hm, hw]
      exact ih
end

/-! ## Directory scanner: results -/

theorem walk_spec_rev_eq (pre : List Nat) (es : List Entry) :
    walk_spec_rev pre es
      = ((subdirs pre es).reverse.map (fun x => walk_spec x.1 x.2)).flatten := by
  induction es with
  | nil => rfl
  | cons e es ih =>
    cases e with
    | file n =>
      have hs : subdirs pre (Entry.file n :: es) = subdirs pre es := by simp [subdirs]
      rw [hs, walk_spec_rev, ih, walk_spec_one, List.append_nil]
    | closed n =>
      have hs : subdirs pre (Entry.closed n :: es) = subdirs pre es := by simp [subdirs]
      rw [hs, walk_spec_rev, ih, walk_spec_one, List.append_nil]
    | dir n sub =>
      by_cases hd : starts_with_dot n = true
      · have hs : subdirs pre (Entry.dir n sub :: es) = subdirs pre es := by
          simp [subdirs, hd]
        rw [hs, walk_spec_rev, ih, walk_spec_one, if_pos hd, List.append_nil]
      · have hs : subdirs pre (Entry.dir n sub :: es) = (pre ++ n, sub) :: subdirs pre es := by
          simp [subdirs, hd]
        rw [hs, walk_spec_rev, ih, walk_spec_one, if_neg hd]
        simp [walk_spec]

/-- C16: for every finite directory tree in which all directories can be opened, in a file
system whose answers are those of the tree at a non-empty root path, the stack loop of
get_files, given more rounds than the tree has directories to expand, returns true with the
list of the recursive definition walk_spec: the non-dot non-directory children of a directory
in listing order, then the walks of its non-dot subdirectories in reverse listing order; so
the direct files of a directory come before every file found through its subdirectories, and
the subdirectory listed last is expanded first and completely before the ones listed before
it. -/
theorem scan_order_refines_walk (f : List Nat → Option (List (List Nat))) (root : List Nat)
    (es : List Entry) (fuel : Nat) (hroot : root ≠ []) (hrep : represents f root es = true)
    (hopen : all_open es = true) (hfuel : 1 + weight es < fuel) :
    get_files (static_fs f) fuel root = some (true, walk_spec root es)
    ∧ walk_spec root es = files_of (with_slash root) es
        ++ ((subdirs (with_slash root) es).reverse.map
            (fun x => walk_spec x.1 x.2)).flatten := by
  refine ⟨?_, ?_⟩
  · rw [← walk_eq_spec root es hopen]
    exact get_files_tree f root es fuel hroot hrep hfuel
  · rw [walk_spec, walk_spec_rev_eq]

/-- Witness of C16: the tree of `small_fs` (files "a" and "b" and the directory "s" with the
file "c" under "r"): the scan gives r/a, r/b, r/s/c. -/
theorem scan_order_refines_walk_witness :
    get_files (static_fs small_fs) 3 [114]
      = some (true, [[114, 47, 97], [114, 47, 98], [114, 47, 115, 47, 99]]) :=
  (scan_order_refines_walk small_fs [114] small_tree 3 (by decide) (by decide) (by decide)
    (by decide)).1.trans (by decide)

/-- C14: for every finite directory tree in which all directories can be opened and every
name is one that readdir can deliver, in a file system whose answers are those of the tree at
a non-empty root path, get_files, given more rounds than the tree has directories to expand,
returns true, and its result holds each exactly once the paths of the name chains that lead
from the root to the non-directory entries through entries whose names do not begin with a
dot: it is a permutation of the list of these chains, each turned into the root path (with a
'/' appended when it does not end in one) followed by the names joined by '/'; no name in such
a chain begins with a dot. -/
theorem scan_lists_reachable_files (f : List Nat → Option (List (List Nat)))
    (root : List Nat) (es : List Entry) (fuel : Nat) (hroot : root ≠ [])
    (hrep : represents f root es = true) (hopen : all_open es = true)
    (hnames : names_ok es = true) (hfuel : 1 + weight es < fuel) :
    ∃ flist, get_files (static_fs f) fuel root = some (true, flist)
      ∧ flist.Perm ((reachable es).map (join_path (with_slash root)))
      ∧ ∀ c ∈ reachable es, c ≠ [] ∧ ∀ n ∈ c, starts_with_dot n = false :=
  ⟨walk root es, get_files_tree f root es fuel hroot hrep hfuel,
    walk_perm_reachable es (with_slash root) hopen hnames,
    fun c hc => ⟨reachable_ne_nil es c hc, reachable_no_dot es c hc⟩⟩

/-- Witness of C14: the tree of `small_fs`: the result is a permutation of r/a, r/s/c, r/b. -/
theorem scan_lists_reachable_files_witness :
    ∃ flist, get_files (static_fs small_fs) 3 [114] = some (true, flist)
      ∧ flist.Perm [[114, 47, 97], [114, 47, 115, 47, 99], [114, 47, 98]] := by
  obtain ⟨flist, h1, h2, _⟩ := scan_lists_reachable_files small_fs [114] small_tree 3
    (by decide) (by decide) (by decide) (by decide) (by decide)
  exact ⟨flist, h1, h2⟩

set_option maxRecDepth 8192 in
/-- C11, the code at a subdirectory that cannot be opened: in `closed_fs` the subdirectory "s"
of the root "r" does not open. The traversal reaches it, is_dir takes it for a file, and
get_files returns true and lists r/s after the file r/a, for every number of rounds tried (2
and 10), where the opendir test of get_files itself (lines 100-103) makes an unopenable
directory fail the scan; pack and pack_v1 then archive r/s as a second file and return
true. -/
theorem closed_subdirectory_is_listed :
    represents closed_fs [114] closed_tree = true
    ∧ Entry.closed [115] ∈ closed_tree
    ∧ get_files (static_fs closed_fs) 2 [114]
        = some (true, [[114, 47, 97], [114, 47, 115]])
    ∧ get_files (static_fs closed_fs) 10 [114]
        = some (true, [[114, 47, 97], [114, 47, 115]])
    ∧ (pack_root stored id none (static_fs closed_fs) 2 [114] 9).map
        (fun r => (r.ret, r.entry_list)) = some (true, [⟨57, 3⟩, ⟨61, 3⟩])
    ∧ (pack_v1_root stored id none (static_fs closed_fs) 2 [114] 9).map
        (fun r => (r.ret, r.entry_list)) = some (true, [⟨17, 3⟩, ⟨21, 3⟩]) := by
  refine ⟨by decide, by simp [closed_tree], by decide, by decide, by decide, by decide⟩

/-- What get_files does with directories that do not open, in general: it fails (returns
false, with an empty list) when its root, a non-empty path, cannot be opened at the first
opendir call; an entry below that cannot be opened as a directory does not make it fail: in a
file system whose answers do not change and are those of a finite tree whose root opens,
get_files returns true with the walk of the tree, in which every closed directory that is not
skipped for its dot is listed like a file. -/
theorem unopenable_root_fails_closed_subdirectory_listed (fsys : filesystem)
    (f : List Nat → Option (List (List Nat))) (root : List Nat) (es : List Entry)
    (fuel : Nat) (hroot : root ≠ []) (hfuel : 1 + weight es < fuel) :
    (fsys 0 root = none → get_files fsys fuel root = some (false, []))
    ∧ (represents f root es = true →
        get_files (static_fs f) fuel root = some (true, walk root es)
        ∧ ∀ n, Entry.closed n ∈ es → starts_with_dot n = false →
            with_slash root ++ n ∈ walk root es) := by
  have hemp : root.isEmpty = false := by
    cases root with
    | nil => exact absurd rfl hroot
    | cons a l => rfl
  refine ⟨?_, ?_⟩
  · intro h0
    cases fuel with
    | zero => omega
    | succ fuel => simp [get_files, get_files_loop, hemp, h0]
  · intro hrep
    refine ⟨get_files_tree f root es fuel hroot hrep hfuel, ?_⟩
    intro n hn hd
    rw [walk]
    apply List.mem_append_left
    unfold direct_files
    rw [List.mem_filterMap]
    exact ⟨Entry.closed n, hn, by simp [hd]⟩

/-- Witness in `closed_fs`: the root "x" does not open and the scan fails;
the root "r" opens and the scan returns true with r/s in its list. -/
theorem unopenable_root_fails_closed_subdirectory_listed_witness :
    get_files (static_fs closed_fs) 2 [120] = some (false, [])
    ∧ get_files (static_fs closed_fs) 2 [114] = some (true, walk [114] closed_tree)
    ∧ [114, 47, 115] ∈ walk [114] closed_tree :=
  ⟨(unopenable_root_fails_closed_subdirectory_listed (static_fs closed_fs) closed_fs [120]
      closed_tree 2 (by decide) (by decide)).1 (by decide),
   ((unopenable_root_fails_closed_subdirectory_listed (static_fs closed_fs) closed_fs [114]
      closed_tree 2 (by decide) (by decide)).2 (by decide)).1,
   ((unopenable_root_fails_closed_subdirectory_listed (static_fs closed_fs) closed_fs [114]
      closed_tree 2 (by decide) (by decide)).2 (by decide)).2 [115] (by simp [closed_tree])
      (by decide)⟩

/-! ## The scan result in pack and pack_v1 -/

/-- C13: for both pack and pack_v1, whenever the scan ends with an empty file list, whatever
bool get_files returns, the operation returns false, the output stream is never opened
(write_stream is none), so no byte is written, and no entry is recorded. -/
theorem empty_scan_aborts {σ : Type} (z : zlib σ) (fs : List Nat → List Nat)
    (cap : Option Nat) (fsys : filesystem) (fuel : Nat) (root : List Nat) (level : Int)
    (ok : Bool) (h : get_files fsys fuel root = some (ok, [])) :
    pack_root z fs cap fsys fuel root level
        = some { ret := false, write_stream := none, entry_list := [] }
    ∧ pack_v1_root z fs cap fsys fuel root level
        = some { ret := false, write_stream := none, entry_list := [] } := by
  unfold pack_root pack_v1_root
  rw [h]
  exact ⟨rfl, rfl⟩

/-- Witness of C13: a root directory that lists only "." and "..". -/
theorem empty_scan_aborts_witness :
    pack_root stored id none (static_fs (fun path =>
        if path = [114] then some [[46], [46, 46]] else none)) 2 [114] 9
      = some { ret := false, write_stream := none, entry_list := [] } :=
  (empty_scan_aborts stored id none (static_fs (fun path =>
    if path = [114] then some [[46], [46, 46]] else none)) 2 [114] 9 true (by decide)).1

theorem scan_entries_static_dirs (f : List Nat → Option (List (List Nat))) (pre : List Nat)
    (names : List (List Nat)) (k : Nat) (dirs flist : List (List Nat))
    (h : ∀ p ∈ dirs, p = [] ∨ f p ≠ none) :
    ∀ p ∈ (scan_entries (static_fs f) pre names k dirs flist).2.1, p = [] ∨ f p ≠ none := by
  induction names generalizing k dirs flist with
  | nil => exact h
  | cons dn rest ih =>
    rw [scan_entries]
    split
    · exact ih k dirs flist h
    · split
      · rename_i hd
        apply ih
        intro p hp
        rcases List.mem_cons.1 hp with hp | hp
        · right
          rw [hp]
          intro h0
          simp [is_dir, static_fs, h0] at hd
        · exact h p hp
      · exact ih _ dirs _ h

theorem get_files_loop_static (f : List Nat → Option (List (List Nat))) (fuel k : Nat)
    (dirs flist fl : List (List Nat)) (h : ∀ p ∈ dirs, p = [] ∨ f p ≠ none) :
    get_files_loop (static_fs f) fuel k dirs flist ≠ some (false, fl) := by
  induction fuel generalizing k dirs flist with
  | zero => simp [get_files_loop]
  | succ fuel ih =>
    cases dirs with
    | nil => simp [get_files_loop]
    | cons path rest =>
      have hrest : ∀ p ∈ rest, p = [] ∨ f p ≠ none :=
        fun p hp => h p (List.mem_cons_of_mem _ hp)
      rw [get_files_loop]
      split
      · exact ih k rest flist hrest
      · rename_i hemp
        have hpath : f path ≠ none := by
          rcases h path (List.mem_cons_self _ _) with h0 | h0
          · rw [h0] at hemp; simp at hemp
          · exact h0
        cases hf : f path with
        | none => exact absurd hf hpath
        | some names =>
          simp only [static_fs, hf]
          have hs := scan_entries_static_dirs f (with_slash path) names (k + 1) rest flist hrest
          rcases hscan : scan_entries (static_fs f) (with_slash path) names (k + 1) rest flist
            with ⟨k2, dirs2, flist2⟩
          rw [hscan] at hs
          exact ih k2 dirs2 flist2 hs

/-- In a file system whose answers do not change, a scan that fails has collected nothing:
only the opendir of the root can fail, so pack and pack_v1 find the list empty. -/
theorem static_scan_failure_is_empty (f : List Nat → Option (List (List Nat))) (fuel : Nat)
    (root : List Nat) (fl : List (List Nat))
    (h : get_files (static_fs f) fuel root = some (false, fl)) : fl = [] := by
  by_cases hr : root = [] ∨ f root ≠ none
  · exact absurd h (get_files_loop_static f fuel 0 [root] [] fl (by
      intro p hp
      have : p = root := by simpa using hp
      rw [this]; exact hr))
  · have hr1 : root ≠ [] := fun h0 => hr (Or.inl h0)
    have hr2 : f root = none := by
      by_contra h0
      exact hr (Or.inr h0)
    have hemp : root.isEmpty = false := by
      cases root with
      | nil => exact absurd rfl hr1
      | cons a l => rfl
    cases fuel with
    | zero => simp [get_files, get_files_loop] at h
    | succ fuel =>
      simp [get_files, get_files_loop, hemp, static_fs, hr2] at h
      exact h

set_option maxRecDepth 8192 in
/-- C12, the code at a failing scan that has collected a file: in `flaky_fs` the directory
r/s opens when is_dir probes it and fails when get_files opens it, so get_files returns false
with r/a in the list; pack and pack_v1 do not look at that result: they open the output,
write the archive of r/a (41 and 58 bytes) and return true. -/
theorem pack_goes_on_after_failed_scan :
    get_files flaky_fs 5 [114] = some (false, [[114, 47, 97]])
    ∧ pack_root stored id none flaky_fs 5 [114] 9
      = some { ret := true,
               write_stream := some
                 { data := [74, 86, 70, 83, 48, 49, 48, 48, 0, 0, 0, 0, 0, 0, 0, 0, 1,
                     0, 0, 0, 0, 0, 0, 0, 37, 0, 0, 0, 0, 0, 0, 0, 3, 114, 47, 97, 0,
                     114, 47, 97, 255],
                   pos := 37, cap := none,
                   log := [(37, 37), (4, 4), (8, 8), (1, 1), (8, 8), (8, 8), (8, 8), (3, 3),
                     (1, 1)] },
               entry_list := [⟨37, 3⟩] }
    ∧ (pack_v1_root stored id none flaky_fs 5 [114] 9).map (fun r => r.ret) = some true
    ∧ (pack_v1_root stored id none flaky_fs 5 [114] 9).map
        (fun r => r.write_stream.map (fun w => w.data.length)) = some (some 58) := by
  refine ⟨by decide, by decide, by decide, by decide⟩

/-! ## The entry point -/

/-- C15, counterexample: the command line `jpkg o r 0` supplies three arguments, the level is
missing; main prints no usage text, reads argv[3], argv[1] and argv[2], calls pack("o", "r")
with Z_DEFAULT_COMPRESSION and returns 0. -/
theorem three_arguments_run_pack :
    ([[106, 112, 107, 103], [111], [114], [48]] : List (List Nat)).length = 4
    ∧ main [[106, 112, 107, 103], [111], [114], [48]]
      = { usage := false, reads := [3, 1, 2],
          call := some { v1 := false, pkg_name := [111], root_path := [114],
                         compression_level := Z_DEFAULT_COMPRESSION },
          ret := some 0 } := by
  refine ⟨by decide, by decide⟩

/-- The command line `jpkg o r` supplies two arguments: main passes the test of argc, prints no
usage text and reads argv[3], which lies past the null pointer argv[2 + 1 = argc]. -/
theorem two_arguments_read_past_argv :
    main [[106, 112, 107, 103], [111], [114]]
      = { usage := false, reads := [3], call := none, ret := none } := by
  decide

/-- C15 as amended: with fewer than two or more than four arguments (argc below 3 or above 5)
main prints the usage text, returns 0, makes no call and reads no argument. With three or four
arguments (argc 4 or 5) it prints no usage text and returns 0 after one call, of pack_v1 when
argv[3] starts with the character 1 and of pack otherwise, with argv[1] and argv[2] and with
the level Z_BEST_COMPRESSION when a fourth argument is given and is "best", Z_DEFAULT_COMPRESSION
otherwise; every argument it reads was supplied. -/
theorem usage_outside_three_or_four_arguments (argv : List (List Nat)) :
    (argv.length < 3 ∨ 5 < argv.length →
      main argv = { usage := true, reads := [], call := none, ret := some 0 })
    ∧ (argv.length = 4 ∨ argv.length = 5 →
      (main argv).usage = false
      ∧ (main argv).ret = some 0
      ∧ (main argv).call = some
          { v1 := decide ((argv.getD 3 []).head? = some 49),
            pkg_name := argv.getD 1 [],
            root_path := argv.getD 2 [],
            compression_level :=
              if argv[4]? = some [98, 101, 115, 116] then Z_BEST_COMPRESSION
              else Z_DEFAULT_COMPRESSION }
      ∧ ∀ i ∈ (main argv).reads, i < argv.length) := by
  refine ⟨?_, ?_⟩
  · intro h
    unfold main
    simp only [gt_iff_lt, h, if_true]
  · intro h
    match argv, h with
    | [a0, a1, a2, a3], _ =>
      cases a3 with
      | nil => simp [main, c_str]
      | cons c rest =>
        simp [main, c_str]
        rfl
    | [a0, a1, a2, a3, a4], _ =>
      by_cases hb : a4 = [98, 101, 115, 116]
      · cases a3 with
        | nil => simp [main, c_str, hb]
        | cons c rest =>
          simp [main, c_str, hb]
          rfl
      · cases a3 with
        | nil => simp [main, c_str, hb]
        | cons c rest =>
          simp [main, c_str, hb]
          rfl

/-- Witness of C15 as amended: the command lines `jpkg` and `jpkg o r 1 best`. -/
theorem usage_outside_three_or_four_arguments_witness :
    main [[106, 112, 107, 103]] = { usage := true, reads := [], call := none, ret := some 0 }
    ∧ (main [[106, 112, 107, 103], [111], [114], [49], [98, 101, 115, 116]]).call
      = some { v1 := true, pkg_name := [111], root_path := [114],
               compression_level := Z_BEST_COMPRESSION } :=
  ⟨(usage_outside_three_or_four_arguments [[106, 112, 107, 103]]).1 (Or.inl (by decide)),
   ((usage_outside_three_or_four_arguments
      [[106, 112, 107, 103], [111], [114], [49], [98, 101, 115, 116]]).2
        (Or.inr (by decide))).2.2.1.trans (by decide)⟩

/-! ## The calls of the deflater -/

theorem takeWhile_path (path rest : List Nat) (hz : 0 ∉ path) :
    (path ++ 0 :: rest).takeWhile (fun b => b != 0) = path := by
  induction path with
  | nil => rfl
  | cons b tl ih =>
    have hb : b ≠ 0 := fun h0 => hz (by rw [h0]; exact List.mem_cons_self _ _)
    have htl : 0 ∉ tl := fun h0 => hz (List.mem_cons_of_mem _ h0)
    rw [List.cons_append, List.takeWhile_cons]
    simp only [bne_iff_ne, ne_eq, hb, not_false_eq_true, if_true, ih htl]

theorem decode_rows_table (es : List (pack_entry_t × List Nat)) (tail : List Nat)
    (h64 : ∀ e ∈ es, e.1.addr < 2 ^ 64 ∧ e.1.uncompressed_size < 2 ^ 64)
    (hz : ∀ e ∈ es, 0 ∉ e.2) :
    decode_rows es.length (table_bytes es ++ tail) = es := by
  induction es with
  | nil => rfl
  | cons e rest ih =>
    obtain ⟨ha, hs⟩ := h64 e (List.mem_cons_self _ _)
    have hp := hz e (List.mem_cons_self _ _)
    have hb : table_bytes (e :: rest) ++ tail
        = encode_tmp e.1.addr ++ (encode_tmp e.1.uncompressed_size
            ++ (e.2 ++ 0 :: (table_bytes rest ++ tail))) := by
      have h0 : table_bytes (e :: rest) = entry_bytes e ++ table_bytes rest := rfl
      rw [h0, entry_bytes]
      simp only [List.append_assoc, List.singleton_append, List.cons_append, List.nil_append]
    have h1 : (table_bytes (e :: rest) ++ tail).take 8 = encode_tmp e.1.addr := by
      rw [hb]
      exact List.take_left' (length_encode_tmp _)
    have h2 : (table_bytes (e :: rest) ++ tail).drop 8
        = encode_tmp e.1.uncompressed_size ++ (e.2 ++ 0 :: (table_bytes rest ++ tail)) := by
      rw [hb]
      exact List.drop_left' (length_encode_tmp _)
    have h3 : (table_bytes (e :: rest) ++ tail).drop 16
        = e.2 ++ 0 :: (table_bytes rest ++ tail) := by
      have h4 : (16 : Nat) = 8 + 8 := rfl
      rw [h4, ← List.drop_drop, h2]
      exact List.drop_left' (length_encode_tmp _)
    rw [List.length_cons, decode_rows]
    simp only [h1, h2, h3, takeWhile_path _ _ hp, List.take_left' (length_encode_tmp _),
      be_value_encode_tmp _ ha, be_value_encode_tmp _ hs]
    have h5 : (e.2 ++ 0 :: (table_bytes rest ++ tail)).drop (e.2.length + 1)
        = table_bytes rest ++ tail := by
      rw [← List.drop_drop, List.drop_left]
      rfl
    rw [h5, ih (fun x hx => h64 x (List.mem_cons_of_mem _ hx))
      (fun x hx => hz x (List.mem_cons_of_mem _ hx))]

/-- The positive part of C18: for fewer than 2^32 files, entries whose fields are 64-bit
values and paths without a zero byte, `decode_catalog` recovers the entries and their paths, in
order, from the catalog blob that pack_v1 builds (pack writes the same bytes after the
signature). -/
theorem catalog_decodes (file_list : List (List Nat)) (entry_list : List pack_entry_t)
    (hn : file_list.length < 2 ^ 32) (hlen : entry_list.length = file_list.length)
    (h64 : ∀ e ∈ entry_list, e.addr < 2 ^ 64 ∧ e.uncompressed_size < 2 ^ 64)
    (hz : ∀ path ∈ file_list, 0 ∉ path) :
    decode_catalog (hdr_data file_list entry_list) = entry_list.zip file_list := by
  have hzl : (entry_list.zip file_list).length = file_list.length := by
    rw [List.length_zip, hlen, Nat.min_self]
  have hcount : file_list.length < 2 ^ 64 := Nat.lt_trans hn (by decide)
  rw [hdr_data_eq, loop_range_of_lt file_list hn, decode_catalog, catalog_bytes,
    List.take_left' (length_encode_tmp _), List.drop_left' (length_encode_tmp _),
    be_value_encode_tmp _ hcount, ← hzl]
  have h := decode_rows_table (entry_list.zip file_list) []
    (fun e he => h64 e.1 (List.of_mem_zip he).1) (fun e he => hz e.2 (List.of_mem_zip he).2)
  rwa [List.append_nil] at h

/-- Below 2^32 files the catalog blob is unambiguous: equal blobs come from equal entry lists
and equal path lists. -/
theorem catalog_unambiguous_below_4294967296 (fl1 fl2 : List (List Nat))
    (el1 el2 : List pack_entry_t)
    (hn1 : fl1.length < 2 ^ 32) (hn2 : fl2.length < 2 ^ 32)
    (hl1 : el1.length = fl1.length) (hl2 : el2.length = fl2.length)
    (h1 : ∀ e ∈ el1, e.addr < 2 ^ 64 ∧ e.uncompressed_size < 2 ^ 64)
    (h2 : ∀ e ∈ el2, e.addr < 2 ^ 64 ∧ e.uncompressed_size < 2 ^ 64)
    (hz1 : ∀ path ∈ fl1, 0 ∉ path) (hz2 : ∀ path ∈ fl2, 0 ∉ path)
    (h : hdr_data fl1 el1 = hdr_data fl2 el2) : el1 = el2 ∧ fl1 = fl2 := by
  have e1 := catalog_decodes fl1 el1 hn1 hl1 h1 hz1
  have e2 := catalog_decodes fl2 el2 hn2 hl2 h2 hz2
  rw [h, e2] at e1
  have e3 := congrArg List.unzip e1
  rw [List.unzip_zip hl2, List.unzip_zip hl1] at e3
  exact ⟨(Prod.mk.inj e3).1.symm, (Prod.mk.inj e3).2.symm⟩

theorem map_snoc_ne (l : List (List Nat)) (b : Nat) (h : l ≠ []) :
    l ≠ l.map (fun path => path ++ [b]) := by
  cases l with
  | nil => exact absurd rfl h
  | cons path rest =>
    intro he
    rw [List.map_cons] at he
    have h2 := congrArg List.length (List.cons.inj he).1
    simp at h2

theorem many_paths_no_zero (n : Nat) : ∀ path ∈ many_paths n, 0 ∉ path := by
  intro path hp
  unfold many_paths at hp
  obtain ⟨i, _, hi⟩ := List.mem_map.1 hp
  rw [← hi]
  simp [path_n]

/-- C18, the code at two lists of 2^32 paths without a zero byte, `many_paths` and the same
paths with the letter z appended to each: the lists differ, pack and pack_v1 record no entry
for either, and the catalog blob built for either is the 8 bytes of the count 2^32 without
any row, so the two catalogs have the same bytes. -/
theorem catalog_blob_at_4294967296_paths :
    (many_paths 4294967296).length = 4294967296
    ∧ ((many_paths 4294967296).map (fun path => path ++ [122])).length = 4294967296
    ∧ (∀ path ∈ many_paths 4294967296, 0 ∉ path)
    ∧ many_paths 4294967296 ≠ (many_paths 4294967296).map (fun path => path ++ [122])
    ∧ (pack_v1 stored id none (many_paths 4294967296) 9).entry_list = []
    ∧ (pack_v1 stored id none
        ((many_paths 4294967296).map (fun path => path ++ [122])) 9).entry_list = []
    ∧ (pack stored id none
        ((many_paths 4294967296).map (fun path => path ++ [122])) 9).entry_list = []
    ∧ hdr_data (many_paths 4294967296) [] = [0, 0, 0, 1, 0, 0, 0, 0]
    ∧ hdr_data ((many_paths 4294967296).map (fun path => path ++ [122])) []
        = [0, 0, 0, 1, 0, 0, 0, 0] := by
  have hl1 : (many_paths 4294967296).length = 4294967296 := length_many_paths _
  have hl2 : ((many_paths 4294967296).map (fun path => path ++ [122])).length = 4294967296 :=
    (List.length_map _ _).trans hl1
  have hw1 : (many_paths 4294967296).length % 2 ^ 32 = 0 :=
    (congrArg (fun n => n % 2 ^ 32) hl1).trans (by decide)
  have hw2 : ((many_paths 4294967296).map (fun path => path ++ [122])).length % 2 ^ 32 = 0 :=
    (congrArg (fun n => n % 2 ^ 32) hl2).trans (by decide)
  exact ⟨hl1, hl2, many_paths_no_zero _,
    map_snoc_ne _ 122 (many_paths_ne_nil _ (by decide)),
    pack_v1_entry_list_of_wrap stored id none _ 9 hw1,
    pack_v1_entry_list_of_wrap stored id none _ 9 hw2,
    pack_entry_list_of_wrap stored id none _ 9 hw2,
    hdr_data_of_wrap _ hl1, hdr_data_of_wrap _ hl2⟩

end jpkg
